import Mathlib

/-!
# Merkle tree membership / update gadget (`merkle_tree.tcc`)

A shallow embedding of `plonk::stdlib::merkle_tree` at the level of witness
values: a circuit value (`field_t`, `bool_t`) is represented by the value it
carries, the circuit operators `==`, `&`, `^`, `!` by the corresponding
functions on values, and a hard assertion
`ctx_.assert_equal_constant(b.witness_index, one)` by appending the asserted
boolean to the list of obligations held by the composer context.  The
constraint system is satisfiable for the given witness exactly when every
recorded obligation is `true`.

The hash functions, the backing store, the circuit integer type and the `ASSERT`
macro are not part of the translated file; they enter as parameters
(`Primitives`, `StoreOps`) or are modelled from the specification (`uint32_at`,
`ASSERT`, and the binary hash tree store `tree_store`).
-/

namespace plonk.stdlib

/-- The four hash primitives the file calls.  `compress` and `sha256_field` are
the in-circuit functions (`pedersen::compress`, `sha256_field`); `hash` and
`sha256` are the native ones (`hash({a, b})`, `sha256({v})`). -/
structure Primitives (F : Type) where
  compress : F → F → F
  sha256_field : F → F
  hash : F → F → F
  sha256 : F → F

/-- The operations of the native backing store `store_` used by the file:
construction from a depth, `root()`, `get_hash_path(index)` and
`update_element(index, value)`. -/
structure StoreOps (S F : Type) where
  create : Nat → S
  root : S → F
  get_hash_path : S → Nat → List (F × F)
  update_element : S → Nat → F → S

/-- Modelled from the spec: the circuit integer type `uint32` and its method
`at(i)` are not in the source.  The specification exposes an index to the
circuit as its bits, least significant first; `index.at(i)` is bit `i`. -/
def uint32_at (index i : Nat) : Bool := index.testBit i

/-- A `for` loop: `for_loop body n i s` runs `n` iterations of `s = body(i, s)`,
the counter starting at `i` and increasing by one. -/
def for_loop {σ : Type} (body : Nat → σ → σ) : Nat → Nat → σ → σ
  | 0, _, s => s
  | n + 1, i, s => for_loop body n (i + 1) (body i s)

/-- Element access `hashes[i]` on a `std::vector` of pairs.  Reading past the
end is outside what C++ defines; the model returns a default pair there.  The
loops below only read positions below `depth_`, which a path of length
`depth_` has. -/
def hash_at {F : Type} [Inhabited F] (hashes : List (F × F)) (i : Nat) : F × F :=
  hashes.getD i default

/-- `create_witness_hash_path`: each native pair becomes a pair of witnesses
carrying the same values. -/
def create_witness_hash_path {F : Type} (input : List (F × F)) : List (F × F) :=
  input.map (fun v => (v.1, v.2))

/-- One iteration of the loop shared by `check_hash_path` and
`check_membership` (lines 65-69 and 87-93); the state is
`(current, is_member)`. -/
def check_body {F : Type} [DecidableEq F] [Inhabited F] (P : Primitives F)
    (hashes : List (F × F)) (index : Nat) (i : Nat) (st : F × Bool) : F × Bool :=
  let current := st.1
  let is_member := st.2
  let path_bit := uint32_at index i
  let is_left := (current == (hash_at hashes i).1) && !path_bit
  let is_right := (current == (hash_at hashes i).2) && path_bit
  let is_member := is_member && Bool.xor is_left is_right
  let current := P.compress (hash_at hashes i).1 (hash_at hashes i).2
  (current, is_member)

/-- `check_hash_path(root, hashes, index)` (lines 55-74). -/
def check_hash_path {F : Type} [DecidableEq F] [Inhabited F] (P : Primitives F)
    (depth_ : Nat) (root : F) (hashes : List (F × F)) (index : Nat) : Bool :=
  let current := P.compress (hash_at hashes 0).1 (hash_at hashes 0).2
  let is_member := true
  let st := for_loop (check_body P hashes index) (depth_ - 1) 1 (current, is_member)
  st.2 && (st.1 == root)

/-- `check_membership(root, hashes, value, index)` (lines 76-101). -/
def check_membership {F : Type} [DecidableEq F] [Inhabited F] (P : Primitives F)
    (depth_ : Nat) (root : F) (hashes : List (F × F)) (value : F) (index : Nat) : Bool :=
  let current := value
  let is_member := true
  let st := for_loop (check_body P hashes index) depth_ 0 (current, is_member)
  st.2 && (st.1 == root)

/-- The boolean asserted at level `i` by the last loop of `update_membership`
(lines 173-176). -/
def share_check {F : Type} [DecidableEq F] [Inhabited F]
    (new_hashes old_hashes : List (F × F)) (index : Nat) (i : Nat) : Bool :=
  let path_bit := uint32_at index i
  let share_left := ((hash_at old_hashes i).1 == (hash_at new_hashes i).1) && path_bit
  let share_right := ((hash_at old_hashes i).2 == (hash_at new_hashes i).2) && !path_bit
  Bool.xor share_left share_right

/-- `update_membership` (lines 153-178).  The function returns nothing and
emits hard assertions; the model returns the asserted booleans in the order in
which they are emitted. -/
def update_membership {F : Type} [DecidableEq F] [Inhabited F] (P : Primitives F)
    (depth_ : Nat) (new_root : F) (new_hashes : List (F × F)) (new_value : F)
    (old_root : F) (old_hashes : List (F × F)) (index : Nat) : List Bool :=
  let old_hashes_valid := check_hash_path P depth_ old_root old_hashes index
  let sha_value := P.sha256_field new_value
  let new_hashes_valid := check_membership P depth_ new_root new_hashes sha_value index
  let asserted := [old_hashes_valid, new_hashes_valid]
  for_loop (fun i acc => acc ++ [share_check new_hashes old_hashes index i]) depth_ 0 asserted

/-- One iteration of the loop of `get_new_hash_path` (lines 186-193); the state
is `(path, current, index)`. -/
def new_path_body {F : Type} [Inhabited F] (P : Primitives F)
    (i : Nat) (st : List (F × F) × F × Nat) : List (F × F) × F × Nat :=
  let path := st.1
  let current := st.2.1
  let index := st.2.2
  let path_bit := (index &&& 1) != 0
  let path :=
    if path_bit then path.set i ((hash_at path i).1, current)
    else path.set i (current, (hash_at path i).2)
  let current := P.hash (hash_at path i).1 (hash_at path i).2
  let index := index / 2
  (path, current, index)

/-- The state of the loop of `get_new_hash_path` after `n` iterations. -/
def get_new_hash_path_loop {F : Type} [Inhabited F] (P : Primitives F)
    (stored : List (F × F)) (index : Nat) (value : F) (n : Nat) : List (F × F) × F × Nat :=
  for_loop (new_path_body P) n 0 (stored, P.sha256 value, index)

/-- `get_new_hash_path(index, value)` (lines 180-196); `index` is a `size_t`
that the loop only shifts right, so no step can overflow. -/
def get_new_hash_path {S F : Type} [Inhabited F] (P : Primitives F) (ops : StoreOps S F)
    (store_ : S) (depth_ : Nat) (index : Nat) (value : F) : List (F × F) :=
  let path := ops.get_hash_path store_ index
  (get_new_hash_path_loop P path index value depth_).1

/-- The members of `merkle_tree<ComposerContext>`.  `ctx_` is the list of
booleans hard-asserted so far on the composer. -/
structure merkle_tree (S F : Type) where
  ctx_ : List Bool
  store_ : S
  root_ : F
  depth_ : Nat
  total_size_ : Nat
  size_ : Nat

/-- How a call ended: normally, or at a failed `ASSERT`. -/
inductive Outcome where
  | ok
  | assert_failed
  deriving DecidableEq, Repr

/-- Modelled from the spec: the macro `ASSERT` is not in the source.  The
specification reports a violated precondition immediately, as a native failure
at the call site; nothing after the `ASSERT` is executed. -/
def ASSERT (condition : Bool) : Outcome :=
  if condition then Outcome.ok else Outcome.assert_failed

/-- The constructor (lines 10-21).  `1ULL << depth_` is taken in 64-bit unsigned
arithmetic: the bits shifted past position 63 are lost. -/
def construct {S F : Type} (ops : StoreOps S F) (ctx : List Bool) (depth : Nat) :
    Option (merkle_tree S F) :=
  let store_ := ops.create depth
  match ASSERT (decide (depth ≥ 1 ∧ depth ≤ 256)) with
  | Outcome.assert_failed => none
  | Outcome.ok =>
    some
      { ctx_ := ctx
        store_ := store_
        depth_ := depth
        size_ := 0
        total_size_ := (1 <<< depth) % 2 ^ 64
        root_ := ops.root store_ }

/-- The façade `check_membership(input, index)` (lines 34-45);
`index.get_value()` is a native 32-bit integer. -/
def check_membership_of {S F : Type} [DecidableEq F] [Inhabited F] (P : Primitives F)
    (ops : StoreOps S F) (t : merkle_tree S F) (input : F) (index : Nat) : Bool :=
  let hashes := ops.get_hash_path t.store_ (index % 2 ^ 32)
  let witness_hashes := create_witness_hash_path hashes
  let value := P.sha256_field input
  check_membership P t.depth_ t.root_ witness_hashes value index

/-- `add_member(input)` (lines 103-121).  On a failed `ASSERT` the state at the
point of failure is returned next to the outcome.  `depth_ - 1` does not wrap:
the constructor only admits `depth_ ≥ 1`. -/
def add_member {S F : Type} [DecidableEq F] [Inhabited F] (P : Primitives F)
    (ops : StoreOps S F) (t : merkle_tree S F) (input : F) : Outcome × merkle_tree S F :=
  match ASSERT (decide (t.size_ < t.total_size_)) with
  | Outcome.assert_failed => (Outcome.assert_failed, t)
  | Outcome.ok =>
    let old_hashes := ops.get_hash_path t.store_ t.size_
    let new_hashes := get_new_hash_path P ops t.store_ t.depth_ t.size_ input
    let new_root :=
      P.hash (hash_at new_hashes (t.depth_ - 1)).1 (hash_at new_hashes (t.depth_ - 1)).2
    let index := t.size_
    let ctx := t.ctx_ ++ [decide (index = t.size_)]
    let ctx := ctx ++ update_membership P t.depth_ new_root (create_witness_hash_path new_hashes)
      input t.root_ (create_witness_hash_path old_hashes) index
    (Outcome.ok,
      { t with
        ctx_ := ctx
        store_ := ops.update_element t.store_ t.size_ input
        root_ := new_root
        size_ := (t.size_ + 1) % 2 ^ 64 })

/-- `update_member(value, index)` (lines 123-151).  The bound `idx < size_` is
commented out in the source, so the function has no failing path;
`index.get_value()` is stored in a native 32-bit integer. -/
def update_member {S F : Type} [DecidableEq F] [Inhabited F] (P : Primitives F)
    (ops : StoreOps S F) (t : merkle_tree S F) (value : F) (index : Nat) : merkle_tree S F :=
  let idx := index % 2 ^ 32
  let old_hashes := ops.get_hash_path t.store_ idx
  let new_hashes := get_new_hash_path P ops t.store_ t.depth_ idx value
  let new_root :=
    P.hash (hash_at new_hashes (t.depth_ - 1)).1 (hash_at new_hashes (t.depth_ - 1)).2
  let ctx := t.ctx_ ++ update_membership P t.depth_ new_root (create_witness_hash_path new_hashes)
    value t.root_ (create_witness_hash_path old_hashes) index
  { t with
    ctx_ := ctx
    store_ := ops.update_element t.store_ idx value
    root_ := new_root }

/-- The states of the façade reachable from `t0` by calls that return: an
`add_member` whose `ASSERT` passes, or an `update_member`. -/
inductive Reachable {S F : Type} [DecidableEq F] [Inhabited F] (P : Primitives F)
    (ops : StoreOps S F) (t0 : merkle_tree S F) : merkle_tree S F → Prop where
  | start : Reachable P ops t0 t0
  | append (t : merkle_tree S F) (input : F) (next : merkle_tree S F) :
      Reachable P ops t0 t → add_member P ops t input = (Outcome.ok, next) →
        Reachable P ops t0 next
  | update (t : merkle_tree S F) (value : F) (index : Nat) :
      Reachable P ops t0 t → Reachable P ops t0 (update_member P ops t value index)

/-- Modelled from the spec: the backing store is not in the source.  This is
the state of a store that keeps a complete binary hash tree of a given depth:
the depth and the hash held at every leaf position. -/
structure TreeStore (F : Type) where
  depth : Nat
  leaves : Nat → F

/-- Modelled from the spec: the hash of the node at `level` (0 for the leaves)
and position `pos` of a complete binary hash tree; a node above the leaves is
the native `hash` of its two children. -/
def TreeStore.node {F : Type} (P : Primitives F) (s : TreeStore F) : Nat → Nat → F
  | 0, pos => s.leaves pos
  | level + 1, pos =>
    P.hash (TreeStore.node P s level (2 * pos)) (TreeStore.node P s level (2 * pos + 1))

/-- Modelled from the spec: the backing store as a complete binary hash tree.
A new store holds the default value at every leaf; `root()` is the node at
level `depth`; `get_hash_path(i)` returns, for every level below `depth`, the
pair of children of the ancestor of leaf `i` one level up;
`update_element(i, v)` sets leaf `i` to `sha256(v)`, all hashes above being
recomputed. -/
def tree_store {F : Type} [Inhabited F] (P : Primitives F) : StoreOps (TreeStore F) F :=
  { create := fun depth => { depth := depth, leaves := fun _ => default }
    root := fun s => TreeStore.node P s s.depth 0
    get_hash_path := fun s index =>
      (List.range s.depth).map (fun level =>
        (TreeStore.node P s level (2 * (index / 2 ^ (level + 1))),
          TreeStore.node P s level (2 * (index / 2 ^ (level + 1)) + 1)))
    update_element := fun s index value =>
      { s with leaves := fun pos => if pos = index then P.sha256 value else s.leaves pos } }

/-- A façade state over the binary hash tree store is consistent when the
store has the depth of the tree, `root_` is the root of the store, the depth is
at least 1 and `total_size_` is a 64-bit value not above `2^depth_`.  The
constructor establishes this, and appends and updates of valid indices keep
it. -/
def store_consistent {F : Type} [Inhabited F] (P : Primitives F)
    (t : merkle_tree (TreeStore F) F) : Prop :=
  t.store_.depth = t.depth_ ∧ t.root_ = TreeStore.node P t.store_ t.depth_ 0 ∧ 1 ≤ t.depth_ ∧
    t.total_size_ ≤ 2 ^ t.depth_ ∧ t.total_size_ < 2 ^ 64

/-- The calls that may follow once a value sits at leaf `i`: appends that
return, and updates of valid indices other than `i`. -/
inductive LaterSteps {F : Type} [DecidableEq F] [Inhabited F] (P : Primitives F) (i : Nat)
    (t1 : merkle_tree (TreeStore F) F) : merkle_tree (TreeStore F) F → Prop where
  | start : LaterSteps P i t1 t1
  | append (t : merkle_tree (TreeStore F) F) (input : F) (next : merkle_tree (TreeStore F) F) :
      LaterSteps P i t1 t → add_member P (tree_store P) t input = (Outcome.ok, next) →
        LaterSteps P i t1 next
  | update (t : merkle_tree (TreeStore F) F) (value : F) (j : Nat) :
      LaterSteps P i t1 t → j ≠ i → j < 2 ^ t.depth_ → j < 2 ^ 32 →
        LaterSteps P i t1 (update_member P (tree_store P) t value j)

/-! ## Reading aids used in the statements -/

/-- The side of a pair that an index bit selects: `second` when the bit is 1,
`first` when it is 0. -/
def selected {F : Type} (pair : F × F) (bit : Bool) : F :=
  if bit then pair.2 else pair.1

/-- The side of a pair that an index bit does not select (the sibling):
`first` when the bit is 1, `second` when it is 0. -/
def sibling {F : Type} (pair : F × F) (bit : Bool) : F :=
  if bit then pair.1 else pair.2

/-- The running value of the verifier loops: `current_0 = value` and
`current_(i+1) = compress(hashes[i].first, hashes[i].second)`. -/
def running {F : Type} [Inhabited F] (P : Primitives F) (hashes : List (F × F)) (value : F) :
    Nat → F
  | 0 => value
  | i + 1 => P.compress (hash_at hashes i).1 (hash_at hashes i).2

/-- The value obtained from a leaf by combining it, level after level, with
the sibling found in `old` : the running value goes on the right when bit `i`
of the index is 1 and on the left when it is 0. -/
def climb {F : Type} [Inhabited F] (comp : F → F → F) (old : List (F × F)) (index : Nat)
    (leaf : F) : Nat → F
  | 0 => leaf
  | i + 1 =>
    if index.testBit i then comp (hash_at old i).1 (climb comp old index leaf i)
    else comp (climb comp old index leaf i) (hash_at old i).2

/-- The pair written at level `j` by `get_new_hash_path`. -/
def new_pair {F : Type} [Inhabited F] (P : Primitives F) (stored : List (F × F)) (index : Nat)
    (value : F) (j : Nat) : F × F :=
  if index.testBit j then
    ((hash_at stored j).1, climb P.hash stored index (P.sha256 value) j)
  else (climb P.hash stored index (P.sha256 value) j, (hash_at stored j).2)

/-- The per-level condition as the specification words it: the running value
matches exactly one side of the pair, and that side is the one the index bit
selects. -/
def matches_exactly_one_selected {F : Type} (pair : F × F) (bit : Bool) (current : F) : Prop :=
  ((current = pair.1 ∧ current ≠ pair.2) ∨ (current ≠ pair.1 ∧ current = pair.2)) ∧
    current = selected pair bit

/-! ## Concrete instances used to evaluate the definitions -/

/-- A small instance of the primitives on natural numbers: Cantor-style pairing
for the compression function (it is injective) and the successor for the leaf
hash, in circuit and natively alike. -/
def toy : Primitives Nat :=
  { compress := Nat.pair
    sha256_field := fun v => v + 1
    hash := Nat.pair
    sha256 := fun v => v + 1 }

/-- A read-only store holding the all-zero tree of a given depth.  Under `toy`
every node of that tree is 0, so every path is a list of pairs `(0, 0)` and the
root is 0.  The state is the depth; writes are ignored. -/
def zero_store : StoreOps Nat Nat :=
  { create := fun depth => depth
    root := fun _ => 0
    get_hash_path := fun depth _ => List.replicate depth (0, 0)
    update_element := fun depth _ _ => depth }

/-- A tree of depth 2 over `zero_store` that already holds `2^2 = 4` leaves. -/
def full_tree : merkle_tree Nat Nat :=
  { ctx_ := []
    store_ := 2
    root_ := 0
    depth_ := 2
    total_size_ := 4
    size_ := 4 }

/-- The tree of depth 2 built by the constructor over `zero_store`. -/
def fresh_tree : merkle_tree Nat Nat :=
  { ctx_ := []
    store_ := 2
    root_ := 0
    depth_ := 2
    total_size_ := 4
    size_ := 0 }

/-- The tree of depth 2 built by the constructor over `tree_store toy`. -/
def empty_tree : merkle_tree (TreeStore Nat) Nat :=
  { ctx_ := []
    store_ := (tree_store toy).create 2
    root_ := (tree_store toy).root ((tree_store toy).create 2)
    depth_ := 2
    total_size_ := 4
    size_ := 0 }

/-! ## The loops -/

theorem for_loop_succ_last {σ : Type} (body : Nat → σ → σ) (n i : Nat) (s : σ) :
    for_loop body (n + 1) i s = body (i + n) (for_loop body n i s) := by
  induction n generalizing i s with
  | zero => simp [for_loop]
  | succ n ih =>
    rw [for_loop, ih]
    conv_rhs => rw [for_loop]
    have h : i + 1 + n = i + (n + 1) := by omega
    rw [h]

theorem check_body_eq {F : Type} [DecidableEq F] [Inhabited F] (P : Primitives F)
    (hashes : List (F × F)) (index i : Nat) (c : F) (b : Bool) :
    check_body P hashes index i (c, b) =
      (P.compress (hash_at hashes i).1 (hash_at hashes i).2,
        b && (c == selected (hash_at hashes i) (index.testBit i))) := by
  unfold check_body uint32_at selected
  cases index.testBit i <;> simp

theorem check_loop_eq {F : Type} [DecidableEq F] [Inhabited F] (P : Primitives F)
    (hashes : List (F × F)) (index : Nat) (value : F) (n s : Nat) (b : Bool) :
    (for_loop (check_body P hashes index) n s (running P hashes value s, b)).1 =
        running P hashes value (s + n) ∧
      ((for_loop (check_body P hashes index) n s (running P hashes value s, b)).2 = true ↔
        b = true ∧ ∀ i, s ≤ i → i < s + n →
          running P hashes value i = selected (hash_at hashes i) (index.testBit i)) := by
  induction n with
  | zero =>
    refine ⟨by simp [for_loop], ?_⟩
    simp only [for_loop, Nat.add_zero]
    constructor
    · intro hb
      exact ⟨hb, fun i h1 h2 => absurd h2 (by omega)⟩
    · intro hb
      exact hb.1
  | succ n ih =>
    obtain ⟨ih1, ih2⟩ := ih
    rw [for_loop_succ_last]
    generalize for_loop (check_body P hashes index) n s (running P hashes value s, b) = st at ih1 ih2
    obtain ⟨c, m⟩ := st
    simp only at ih1 ih2
    rw [check_body_eq]
    refine ⟨by simp [running, ← Nat.add_assoc], ?_⟩
    simp only [Bool.and_eq_true, beq_iff_eq]
    rw [ih2, ih1]
    constructor
    · rintro ⟨⟨hb, hall⟩, hlast⟩
      refine ⟨hb, fun i h1 h2 => ?_⟩
      by_cases hi : i < s + n
      · exact hall i h1 hi
      · have : i = s + n := by omega
        rw [this]
        exact hlast
    · rintro ⟨hb, hall⟩
      exact ⟨⟨hb, fun i h1 h2 => hall i h1 (by omega)⟩, hall (s + n) (by omega) (by omega)⟩

theorem check_membership_iff {F : Type} [DecidableEq F] [Inhabited F] (P : Primitives F)
    (d : Nat) (root : F) (hashes : List (F × F)) (value : F) (index : Nat) :
    check_membership P d root hashes value index = true ↔
      (∀ i, i < d → running P hashes value i = selected (hash_at hashes i) (index.testBit i)) ∧
        running P hashes value d = root := by
  have h := check_loop_eq P hashes index value d 0 true
  have r0 : running P hashes value 0 = value := rfl
  rw [r0, Nat.zero_add] at h
  unfold check_membership
  simp only [Bool.and_eq_true, beq_iff_eq]
  rw [h.1, h.2]
  simp

theorem check_hash_path_iff {F : Type} [DecidableEq F] [Inhabited F] (P : Primitives F)
    (d : Nat) (hd : 1 ≤ d) (root : F) (hashes : List (F × F)) (value : F) (index : Nat) :
    check_hash_path P d root hashes index = true ↔
      (∀ i, 1 ≤ i → i < d →
          running P hashes value i = selected (hash_at hashes i) (index.testBit i)) ∧
        running P hashes value d = root := by
  have h := check_loop_eq P hashes index value (d - 1) 1 true
  have hd1 : 1 + (d - 1) = d := by omega
  rw [hd1] at h
  have r1 : running P hashes value 1 = P.compress (hash_at hashes 0).1 (hash_at hashes 0).2 :=
    rfl
  rw [r1] at h
  unfold check_hash_path
  simp only [Bool.and_eq_true, beq_iff_eq]
  rw [h.1, h.2]
  simp

theorem emit_loop_eq (f : Nat → Bool) (n s : Nat) (acc : List Bool) :
    for_loop (fun i acc => acc ++ [f i]) n s acc =
      acc ++ (List.range n).map (fun k => f (s + k)) := by
  induction n with
  | zero => simp [for_loop]
  | succ n ih =>
    rw [for_loop_succ_last, ih, List.range_succ, List.map_append]
    simp

theorem update_membership_eq {F : Type} [DecidableEq F] [Inhabited F] (P : Primitives F)
    (d : Nat) (new_root : F) (new_hashes : List (F × F)) (new_value old_root : F)
    (old_hashes : List (F × F)) (index : Nat) :
    update_membership P d new_root new_hashes new_value old_root old_hashes index =
      check_hash_path P d old_root old_hashes index ::
        check_membership P d new_root new_hashes (P.sha256_field new_value) index ::
          (List.range d).map (share_check new_hashes old_hashes index) := by
  unfold update_membership
  simp only [emit_loop_eq, Nat.zero_add]
  rfl

theorem update_membership_all_iff {F : Type} [DecidableEq F] [Inhabited F] (P : Primitives F)
    (d : Nat) (new_root : F) (new_hashes : List (F × F)) (new_value old_root : F)
    (old_hashes : List (F × F)) (index : Nat) :
    (∀ b ∈ update_membership P d new_root new_hashes new_value old_root old_hashes index,
        b = true) ↔
      check_hash_path P d old_root old_hashes index = true ∧
        check_membership P d new_root new_hashes (P.sha256_field new_value) index = true ∧
          ∀ i, i < d → share_check new_hashes old_hashes index i = true := by
  rw [update_membership_eq]
  simp only [List.mem_cons, List.mem_map, List.mem_range, forall_eq_or_imp]
  constructor
  · rintro ⟨h1, h2, h3⟩
    exact ⟨h1, h2, fun i hi => h3 _ ⟨i, hi, rfl⟩⟩
  · rintro ⟨h1, h2, h3⟩
    refine ⟨h1, h2, ?_⟩
    rintro b ⟨i, hi, rfl⟩
    exact h3 i hi

theorem share_check_iff {F : Type} [DecidableEq F] [Inhabited F]
    (new_hashes old_hashes : List (F × F)) (index i : Nat) :
    share_check new_hashes old_hashes index i = true ↔
      sibling (hash_at new_hashes i) (index.testBit i) =
        sibling (hash_at old_hashes i) (index.testBit i) := by
  unfold share_check uint32_at sibling
  cases index.testBit i <;> simp <;> constructor <;> intro h <;> exact h.symm

/-! ## C1 -/

/-- C1. Soundness of `update_membership`: for a depth `d ≥ 1`, any index and any
old and new paths of length `d`, if every hard assertion emitted by
`update_membership` holds, then at every level `i < d` the sibling side of the
new pair (first when bit `i` of the index is 1, second when it is 0) equals the
same side of the old pair, and `new_root` is the value obtained from
`sha256_field(new_value)` by compressing it, for `i = 0 .. d-1`, with the old
path's sibling at level `i` (running value on the right when bit `i` is 1, on
the left when it is 0). -/
theorem update_membership_sound {F : Type} [DecidableEq F] [Inhabited F] (P : Primitives F)
    (d : Nat) (_hd : 1 ≤ d) (new_root : F) (new_hashes : List (F × F)) (new_value old_root : F)
    (old_hashes : List (F × F)) (index : Nat)
    (_hnew : new_hashes.length = d) (_hold : old_hashes.length = d)
    (hall : ∀ b ∈ update_membership P d new_root new_hashes new_value old_root old_hashes index,
      b = true) :
    (∀ i, i < d →
        sibling (hash_at new_hashes i) (index.testBit i) =
          sibling (hash_at old_hashes i) (index.testBit i)) ∧
      new_root = climb P.compress old_hashes index (P.sha256_field new_value) d := by
  rw [update_membership_all_iff] at hall
  obtain ⟨_, hmem, hshare⟩ := hall
  rw [check_membership_iff] at hmem
  obtain ⟨hsel, hroot⟩ := hmem
  have hsib : ∀ i, i < d →
      sibling (hash_at new_hashes i) (index.testBit i) =
        sibling (hash_at old_hashes i) (index.testBit i) :=
    fun i hi => (share_check_iff new_hashes old_hashes index i).1 (hshare i hi)
  refine ⟨hsib, ?_⟩
  have key : ∀ i, i ≤ d →
      running P new_hashes (P.sha256_field new_value) i =
        climb P.compress old_hashes index (P.sha256_field new_value) i := by
    intro i
    induction i with
    | zero => intro _; rfl
    | succ i ih =>
      intro hi
      have h1 := hsel i (by omega)
      have h2 := hsib i (by omega)
      have h3 := ih (by omega)
      simp only [running, climb]
      unfold selected at h1
      unfold sibling at h2
      cases hb : index.testBit i
      · simp only [hb, Bool.false_eq_true, if_false] at h1 h2 ⊢
        rw [← h3, h1, h2]
      · simp only [hb, if_true] at h1 h2 ⊢
        rw [← h3, h1, h2]
  rw [← hroot]
  exact key d (Nat.le_refl d)

/-- An instance of C1 on a tree of depth 2: leaf 1 of the all-zero tree is
replaced by the value 7. -/
theorem update_membership_sound_witness :
    (1 ≤ 2 ∧ [((0 : Nat), (8 : Nat)), (64, 0)].length = 2 ∧
        [((0 : Nat), (0 : Nat)), (0, 0)].length = 2 ∧
        ∀ b ∈ update_membership toy 2 4160 [(0, 8), (64, 0)] 7 0 [(0, 0), (0, 0)] 1, b = true) ∧
      ((∀ i, i < 2 →
          sibling (hash_at [((0 : Nat), (8 : Nat)), (64, 0)] i) (Nat.testBit 1 i) =
            sibling (hash_at [((0 : Nat), (0 : Nat)), (0, 0)] i) (Nat.testBit 1 i)) ∧
        4160 = climb toy.compress [(0, 0), (0, 0)] 1 (toy.sha256_field 7) 2) :=
  ⟨⟨by decide, by decide, by decide, by decide⟩,
    update_membership_sound toy 2 (by decide) 4160 [(0, 8), (64, 0)] 7 0 [(0, 0), (0, 0)] 1
      (by decide) (by decide) (by decide)⟩

/-! ## The native path computation -/

theorem hash_at_set {F : Type} [Inhabited F] (l : List (F × F)) (i j : Nat) (x : F × F) :
    hash_at (l.set i x) j = if i = j ∧ i < l.length then x else hash_at l j := by
  unfold hash_at
  simp only [List.getD_eq_getElem?_getD, List.getElem?_set]
  by_cases h : i = j
  · subst h
    by_cases h2 : i < l.length
    · simp [h2]
    · have h3 : l.length ≤ i := by omega
      simp [h2, List.getElem?_eq_none h3]
  · simp [h]

theorem low_bit_eq_testBit (index n : Nat) :
    ((index / 2 ^ n) &&& 1 != 0) = index.testBit n := by
  unfold Nat.testBit
  rw [Nat.shiftRight_eq_div_pow, Nat.land_comm]

theorem get_new_hash_path_loop_eq {F : Type} [Inhabited F] (P : Primitives F)
    (stored : List (F × F)) (index : Nat) (value : F) (n : Nat) (hn : n ≤ stored.length) :
    (get_new_hash_path_loop P stored index value n).1.length = stored.length ∧
      (∀ j, hash_at (get_new_hash_path_loop P stored index value n).1 j =
        if j < n then new_pair P stored index value j else hash_at stored j) ∧
      (get_new_hash_path_loop P stored index value n).2.1 =
        climb P.hash stored index (P.sha256 value) n ∧
      (get_new_hash_path_loop P stored index value n).2.2 = index / 2 ^ n := by
  induction n with
  | zero => simp [get_new_hash_path_loop, for_loop, climb]
  | succ n ih =>
    obtain ⟨ih1, ih2, ih3, ih4⟩ := ih (by omega)
    unfold get_new_hash_path_loop at ih1 ih2 ih3 ih4 ⊢
    rw [for_loop_succ_last, Nat.zero_add]
    generalize for_loop (new_path_body P) n 0 (stored, P.sha256 value, index) = st
      at ih1 ih2 ih3 ih4
    obtain ⟨path, current, ix⟩ := st
    simp only at ih1 ih2 ih3 ih4
    subst ih3 ih4
    have hpn : hash_at path n = hash_at stored n := by
      rw [ih2 n]
      simp
    have hlt : n < path.length := by omega
    unfold new_path_body
    simp only [low_bit_eq_testBit, hpn]
    cases hb : index.testBit n
    · simp only [Bool.false_eq_true, if_false, List.length_set, hash_at_set, true_and, hlt,
        if_true]
      refine ⟨ih1, ?_, ?_, ?_⟩
      · intro j
        by_cases hj : n = j
        · subst hj
          simp [new_pair, hb]
        · have hj2 : (j < n + 1) = (j < n) := by
            apply propext
            omega
          simp [hj, ih2 j, hj2]
      · simp [climb, hb]
      · rw [Nat.div_div_eq_div_mul, pow_succ]
    · simp only [if_true, List.length_set, hash_at_set, true_and, hlt]
      refine ⟨ih1, ?_, ?_, ?_⟩
      · intro j
        by_cases hj : n = j
        · subst hj
          simp [new_pair, hb]
        · have hj2 : (j < n + 1) = (j < n) := by
            apply propext
            omega
          simp [hj, ih2 j, hj2]
      · simp [climb, hb]
      · rw [Nat.div_div_eq_div_mul, pow_succ]

theorem get_new_hash_path_at {S F : Type} [Inhabited F] (P : Primitives F) (ops : StoreOps S F)
    (store_ : S) (d index : Nat) (value : F)
    (hlen : (ops.get_hash_path store_ index).length = d) (j : Nat) (hj : j < d) :
    hash_at (get_new_hash_path P ops store_ d index value) j =
      new_pair P (ops.get_hash_path store_ index) index value j := by
  unfold get_new_hash_path
  have h := (get_new_hash_path_loop_eq P (ops.get_hash_path store_ index) index value d
    (by omega)).2.1 j
  rw [h]
  simp [hj]

theorem selected_new_pair {F : Type} [Inhabited F] (P : Primitives F) (stored : List (F × F))
    (index : Nat) (value : F) (j : Nat) :
    selected (new_pair P stored index value j) (index.testBit j) =
      climb P.hash stored index (P.sha256 value) j := by
  unfold selected new_pair
  cases index.testBit j <;> simp

theorem sibling_new_pair {F : Type} [Inhabited F] (P : Primitives F) (stored : List (F × F))
    (index : Nat) (value : F) (j : Nat) :
    sibling (new_pair P stored index value j) (index.testBit j) =
      sibling (hash_at stored j) (index.testBit j) := by
  unfold sibling new_pair
  cases index.testBit j <;> simp

theorem hash_new_pair {F : Type} [Inhabited F] (P : Primitives F) (stored : List (F × F))
    (index : Nat) (value : F) (j : Nat) :
    P.hash (new_pair P stored index value j).1 (new_pair P stored index value j).2 =
      climb P.hash stored index (P.sha256 value) (j + 1) := by
  unfold new_pair
  cases hb : index.testBit j <;> simp [climb, hb]

/-! ## C2 -/

/-- C2. For every depth `d` in `[1, 256]`, every index `idx < 2^d`, every value
`v` and every stored path of length `d`: with
`new_path = get_new_hash_path(idx, v)` and
`root = hash(new_path[d-1].first, new_path[d-1].second)`,
`check_membership(root, new_path, leaf_hash(v), idx)` is true, the in-circuit
compression and leaf hash being the native `hash` and `sha256`. -/
theorem check_membership_new_hash_path {S F : Type} [DecidableEq F] [Inhabited F]
    (P : Primitives F) (ops : StoreOps S F) (store_ : S) (d idx : Nat) (v : F)
    (hd1 : 1 ≤ d) (_hd2 : d ≤ 256) (_hidx : idx < 2 ^ d)
    (hlen : (ops.get_hash_path store_ idx).length = d)
    (hcompress : P.compress = P.hash) (hsha : P.sha256_field = P.sha256) :
    check_membership P d
        (P.hash (hash_at (get_new_hash_path P ops store_ d idx v) (d - 1)).1
          (hash_at (get_new_hash_path P ops store_ d idx v) (d - 1)).2)
        (get_new_hash_path P ops store_ d idx v) (P.sha256_field v) idx = true := by
  rw [check_membership_iff]
  have hrun : ∀ i, i ≤ d →
      running P (get_new_hash_path P ops store_ d idx v) (P.sha256_field v) i =
        climb P.hash (ops.get_hash_path store_ idx) idx (P.sha256 v) i := by
    intro i hi
    cases i with
    | zero => simp [running, climb, hsha]
    | succ k =>
      simp only [running]
      rw [get_new_hash_path_at P ops store_ d idx v hlen k (by omega), hcompress, hash_new_pair]
  constructor
  · intro i hi
    rw [hrun i (by omega), get_new_hash_path_at P ops store_ d idx v hlen i hi,
      selected_new_pair]
  · obtain ⟨k, rfl⟩ : ∃ k, d = k + 1 := ⟨d - 1, by omega⟩
    simp only [running, Nat.add_sub_cancel, hcompress]

/-- An instance of C2: depth 3, index 5, value 7 on the all-zero tree. -/
theorem check_membership_new_hash_path_witness :
    (1 ≤ 3 ∧ 3 ≤ 256 ∧ 5 < 2 ^ 3 ∧ (zero_store.get_hash_path 3 5).length = 3 ∧
        toy.compress = toy.hash ∧ toy.sha256_field = toy.sha256) ∧
      check_membership toy 3
        (toy.hash (hash_at (get_new_hash_path toy zero_store 3 3 5 7) (3 - 1)).1
          (hash_at (get_new_hash_path toy zero_store 3 3 5 7) (3 - 1)).2)
        (get_new_hash_path toy zero_store 3 3 5 7) (toy.sha256_field 7) 5 = true :=
  ⟨⟨by decide, by decide, by decide, by decide, rfl, rfl⟩,
    check_membership_new_hash_path toy zero_store 3 3 5 7 (by decide) (by decide) (by decide)
      (by decide) rfl rfl⟩

/-! ## C3 -/

/-- C3. The bit-direction convention of the per-level check of
`update_membership` agrees with that of `get_new_hash_path`: for a depth
`d ≥ 1`, an index `idx < 2^d`, a value `v` and a stored path `old` of length
`d`, with `new = get_new_hash_path(idx, v)`, the boolean
`share_left ^ share_right` asserted at every level `i < d` is true. -/
theorem share_check_new_hash_path {S F : Type} [DecidableEq F] [Inhabited F]
    (P : Primitives F) (ops : StoreOps S F) (store_ : S) (d idx : Nat) (v : F)
    (_hd : 1 ≤ d) (_hidx : idx < 2 ^ d) (hlen : (ops.get_hash_path store_ idx).length = d)
    (i : Nat) (hi : i < d) :
    share_check (get_new_hash_path P ops store_ d idx v) (ops.get_hash_path store_ idx) idx i =
      true := by
  rw [share_check_iff, get_new_hash_path_at P ops store_ d idx v hlen i hi, sibling_new_pair]

/-- An instance of C3: depth 3, index 5, value 7 on the all-zero tree, level 2. -/
theorem share_check_new_hash_path_witness :
    (1 ≤ 3 ∧ 5 < 2 ^ 3 ∧ (zero_store.get_hash_path 3 5).length = 3 ∧ 2 < 3) ∧
      share_check (get_new_hash_path toy zero_store 3 3 5 7) (zero_store.get_hash_path 3 5) 5 2 =
        true :=
  ⟨⟨by decide, by decide, by decide, by decide⟩,
    share_check_new_hash_path toy zero_store 3 3 5 7 (by decide) (by decide) (by decide) 2
      (by decide)⟩

/-! ## C4 -/

/-- C4, as stated, fails: on the one-level path `[(5, 5)]` with value 5 and
index 0, `check_membership` returns true although the running value matches
both sides of the pair, not exactly one. -/
theorem check_membership_exactly_one_counterexample :
    ¬ (check_membership toy 1 (Nat.pair 5 5) [(5, 5)] 5 0 = true ↔
      (∀ i, i < 1 →
          matches_exactly_one_selected (hash_at [((5 : Nat), (5 : Nat))] i) (Nat.testBit 0 i)
            (running toy [(5, 5)] 5 i)) ∧
        running toy [(5, 5)] 5 1 = Nat.pair 5 5) := by
  intro h
  have h1 := (h.1 (by decide)).1 0 (by decide)
  rcases h1.1 with ⟨_, h2⟩ | ⟨h2, _⟩
  · exact h2 rfl
  · exact h2 rfl

/-- C4, amended. `check_membership(root, hashes, value, index)` returns true if
and only if, with `current_0 = value` and
`current_(i+1) = compress(hashes[i].first, hashes[i].second)`, at every level
`i < depth` the running value `current_i` equals the side of `hashes[i]` that
the index bit selects (first when bit `i` is 0, second when it is 1), and
`current_depth` equals `root`.  The side not selected is not constrained. -/
theorem check_membership_selected_iff {F : Type} [DecidableEq F] [Inhabited F]
    (P : Primitives F) (depth : Nat) (root : F) (hashes : List (F × F)) (value : F)
    (index : Nat) :
    check_membership P depth root hashes value index = true ↔
      (∀ i, i < depth →
          running P hashes value i = selected (hash_at hashes i) (index.testBit i)) ∧
        running P hashes value depth = root :=
  check_membership_iff P depth root hashes value index

/-! ## C5 -/

/-- C5. `check_hash_path` is `check_membership` with level 0 skipped: for a
depth `d ≥ 1` and a path of length `d`, `check_membership(root, hashes, value,
index)` equals `(value == side of hashes[0] selected by bit 0 of index)` AND
`check_hash_path(root, hashes, index)`; hence a true membership check implies a
true hash-path check, and for `d = 1` `check_hash_path` is
`compress(hashes[0].first, hashes[0].second) == root`. -/
theorem check_membership_eq_level0_and_hash_path {F : Type} [DecidableEq F] [Inhabited F]
    (P : Primitives F) (d : Nat) (hd : 1 ≤ d) (root : F) (hashes : List (F × F))
    (_hlen : hashes.length = d) (value : F) (index : Nat) :
    check_membership P d root hashes value index =
        ((value == selected (hash_at hashes 0) (index.testBit 0)) &&
          check_hash_path P d root hashes index) ∧
      (check_membership P d root hashes value index = true →
        check_hash_path P d root hashes index = true) ∧
      (d = 1 →
        check_hash_path P d root hashes index =
          (P.compress (hash_at hashes 0).1 (hash_at hashes 0).2 == root)) := by
  have hmain : check_membership P d root hashes value index =
      ((value == selected (hash_at hashes 0) (index.testBit 0)) &&
        check_hash_path P d root hashes index) := by
    rw [Bool.eq_iff_iff, Bool.and_eq_true, beq_iff_eq, check_membership_iff,
      check_hash_path_iff P d hd root hashes value index]
    constructor
    · rintro ⟨h1, h2⟩
      exact ⟨h1 0 (by omega), fun i _ hi => h1 i hi, h2⟩
    · rintro ⟨h0, h1, h2⟩
      refine ⟨fun i hi => ?_, h2⟩
      cases i with
      | zero => exact h0
      | succ k => exact h1 (k + 1) (by omega) hi
  refine ⟨hmain, ?_, ?_⟩
  · intro h
    rw [hmain, Bool.and_eq_true] at h
    exact h.2
  · intro h1
    subst h1
    simp [check_hash_path, for_loop]

/-- An instance of C5: the path of leaf 0 in a tree of depth 2 whose leaves 0
and 1 hold 8 and 10. -/
theorem check_membership_eq_level0_and_hash_path_witness :
    (1 ≤ 2 ∧ [((8 : Nat), (10 : Nat)), (108, 0)].length = 2) ∧
      (check_membership toy 2 11772 [(8, 10), (108, 0)] 8 0 =
          (((8 : Nat) == selected (hash_at [((8 : Nat), (10 : Nat)), (108, 0)] 0)
              (Nat.testBit 0 0)) &&
            check_hash_path toy 2 11772 [(8, 10), (108, 0)] 0) ∧
        (check_membership toy 2 11772 [(8, 10), (108, 0)] 8 0 = true →
          check_hash_path toy 2 11772 [(8, 10), (108, 0)] 0 = true) ∧
        (2 = 1 →
          check_hash_path toy 2 11772 [(8, 10), (108, 0)] 0 =
            (toy.compress (hash_at [((8 : Nat), (10 : Nat)), (108, 0)] 0).1
              (hash_at [((8 : Nat), (10 : Nat)), (108, 0)] 0).2 == 11772))) :=
  ⟨⟨by decide, by decide⟩,
    check_membership_eq_level0_and_hash_path toy 2 (by decide) 11772 [(8, 10), (108, 0)]
      (by decide) 8 0⟩

/-! ## C6 -/

/-- C6. `get_new_hash_path(index, value)` returns a path of the same length
`depth` as the stored path; at every level `i < depth` the side not selected by
bit `i` of the original index equals the stored path's, and the selected side
(second if the bit is 1, first if 0) holds `sha256(value)` at level 0 and
`hash(result[i].first, result[i].second)` at level `i + 1`; the bit examined at
iteration `i` by the `index & 1`, `index /= 2` loop is bit `i` of the original
index. -/
theorem get_new_hash_path_levels {S F : Type} [Inhabited F] (P : Primitives F)
    (ops : StoreOps S F) (store_ : S) (depth index : Nat) (value : F)
    (hlen : (ops.get_hash_path store_ index).length = depth) :
    ((get_new_hash_path P ops store_ depth index value).length = depth ∧
        (get_new_hash_path P ops store_ depth index value).length =
          (ops.get_hash_path store_ index).length) ∧
      (∀ i, i < depth →
        sibling (hash_at (get_new_hash_path P ops store_ depth index value) i)
            (index.testBit i) =
          sibling (hash_at (ops.get_hash_path store_ index) i) (index.testBit i)) ∧
      (0 < depth →
        selected (hash_at (get_new_hash_path P ops store_ depth index value) 0)
            (index.testBit 0) = P.sha256 value) ∧
      (∀ i, i + 1 < depth →
        selected (hash_at (get_new_hash_path P ops store_ depth index value) (i + 1))
            (index.testBit (i + 1)) =
          P.hash (hash_at (get_new_hash_path P ops store_ depth index value) i).1
            (hash_at (get_new_hash_path P ops store_ depth index value) i).2) ∧
      (∀ i, i < depth →
        (((get_new_hash_path_loop P (ops.get_hash_path store_ index) index value i).2.2 &&& 1)
            != 0) = index.testBit i) := by
  have hl := (get_new_hash_path_loop_eq P (ops.get_hash_path store_ index) index value depth
    (by omega)).1
  have hat := get_new_hash_path_at P ops store_ depth index value hlen
  refine ⟨⟨?_, ?_⟩, ?_, ?_, ?_, ?_⟩
  · unfold get_new_hash_path
    rw [hl, hlen]
  · unfold get_new_hash_path
    rw [hl]
  · intro i hi
    rw [hat i hi, sibling_new_pair]
  · intro hd
    rw [hat 0 hd, selected_new_pair]
    rfl
  · intro i hi
    rw [hat (i + 1) hi, hat i (by omega), selected_new_pair, hash_new_pair]
  · intro i hi
    rw [(get_new_hash_path_loop_eq P (ops.get_hash_path store_ index) index value i
      (by omega)).2.2.2, low_bit_eq_testBit]

/-- An instance of C6: depth 3, index 5, value 7 on the all-zero tree. -/
theorem get_new_hash_path_levels_witness :
    (zero_store.get_hash_path 3 5).length = 3 ∧
      (((get_new_hash_path toy zero_store 3 3 5 7).length = 3 ∧
          (get_new_hash_path toy zero_store 3 3 5 7).length =
            (zero_store.get_hash_path 3 5).length) ∧
        (∀ i, i < 3 →
          sibling (hash_at (get_new_hash_path toy zero_store 3 3 5 7) i) (Nat.testBit 5 i) =
            sibling (hash_at (zero_store.get_hash_path 3 5) i) (Nat.testBit 5 i)) ∧
        (0 < 3 →
          selected (hash_at (get_new_hash_path toy zero_store 3 3 5 7) 0) (Nat.testBit 5 0) =
            toy.sha256 7) ∧
        (∀ i, i + 1 < 3 →
          selected (hash_at (get_new_hash_path toy zero_store 3 3 5 7) (i + 1))
              (Nat.testBit 5 (i + 1)) =
            toy.hash (hash_at (get_new_hash_path toy zero_store 3 3 5 7) i).1
              (hash_at (get_new_hash_path toy zero_store 3 3 5 7) i).2) ∧
        (∀ i, i < 3 →
          (((get_new_hash_path_loop toy (zero_store.get_hash_path 3 5) 5 7 i).2.2 &&& 1) != 0) =
            Nat.testBit 5 i)) :=
  ⟨by decide, get_new_hash_path_levels toy zero_store 3 3 5 7 (by decide)⟩

/-! ## C7 -/

/-- C7. `check_membership` binds the index: for indices `idx, idx2 < 2^depth`,
if `check_membership(root, hashes, value, idx)` is true and `idx2` differs from
`idx` at a bit `i < depth` where `hashes[i].first ≠ hashes[i].second`, then
`check_membership(root, hashes, value, idx2)` is false. -/
theorem check_membership_binds_index {F : Type} [DecidableEq F] [Inhabited F]
    (P : Primitives F) (depth : Nat) (root : F) (hashes : List (F × F)) (value : F)
    (idx idx2 : Nat) (_hidx : idx < 2 ^ depth) (_hidx2 : idx2 < 2 ^ depth)
    (hmem : check_membership P depth root hashes value idx = true)
    (i : Nat) (hi : i < depth) (hbit : idx.testBit i ≠ idx2.testBit i)
    (hne : (hash_at hashes i).1 ≠ (hash_at hashes i).2) :
    check_membership P depth root hashes value idx2 = false := by
  rw [← Bool.not_eq_true]
  intro hmem2
  rw [check_membership_iff] at hmem hmem2
  have h1 := hmem.1 i hi
  have h2 := hmem2.1 i hi
  rw [h1] at h2
  unfold selected at h2
  cases hb : idx.testBit i <;> cases hb2 : idx2.testBit i <;> simp_all

/-- The instance of C7 named in the claim: depth 2, leaf 0 holds the hash 8 of
the value 7, leaf 1 holds 10; the path of leaf 0 is accepted for index 0 and
refused for index 1. -/
theorem check_membership_binds_index_witness :
    (0 < 2 ^ 2 ∧ 1 < 2 ^ 2 ∧
        check_membership toy 2 11772 [(8, 10), (108, 0)] (toy.sha256_field 7) 0 = true ∧
        0 < 2 ∧ Nat.testBit 0 0 ≠ Nat.testBit 1 0 ∧
        (hash_at [((8 : Nat), (10 : Nat)), (108, 0)] 0).1 ≠
          (hash_at [((8 : Nat), (10 : Nat)), (108, 0)] 0).2) ∧
      check_membership toy 2 11772 [(8, 10), (108, 0)] (toy.sha256_field 7) 1 = false :=
  ⟨⟨by decide, by decide, by decide, by decide, by decide, by decide⟩,
    check_membership_binds_index toy 2 11772 [(8, 10), (108, 0)] (toy.sha256_field 7) 0 1
      (by decide) (by decide) (by decide) 0 (by decide) (by decide) (by decide)⟩

/-! ## C8 -/

theorem running_set {F : Type} [Inhabited F] (P : Primitives F) (hashes : List (F × F))
    (k : Nat) (x : F × F) (value : F) (j : Nat) (hj : j ≠ k + 1) :
    running P (hashes.set k x) value j = running P hashes value j := by
  cases j with
  | zero => rfl
  | succ i =>
    have hki : ¬ (k = i ∧ k < hashes.length) := by
      rintro ⟨h, _⟩
      exact hj (by omega)
    simp only [running, hash_at_set, hki, if_false]

/-- C8. Tamper detection: with an injective compression function, for a path of
length `d` and an index with `check_hash_path(root, hashes, index)` true, and a
level `k < d`, replacing one side of `hashes[k]` by a different value makes
`check_hash_path` false, so that `update_membership` called with the tampered
old path emits a hard assertion that is violated. -/
theorem check_hash_path_detects_tamper {F : Type} [DecidableEq F] [Inhabited F]
    (P : Primitives F)
    (hinj : ∀ a b c e, P.compress a b = P.compress c e → a = c ∧ b = e)
    (d : Nat) (root : F) (hashes : List (F × F)) (index : Nat) (hlen : hashes.length = d)
    (hvalid : check_hash_path P d root hashes index = true)
    (k : Nat) (hk : k < d) (x : F × F)
    (hx : (x.1 ≠ (hash_at hashes k).1 ∧ x.2 = (hash_at hashes k).2) ∨
      (x.1 = (hash_at hashes k).1 ∧ x.2 ≠ (hash_at hashes k).2)) :
    check_hash_path P d root (hashes.set k x) index = false ∧
      ∀ (new_root : F) (new_hashes : List (F × F)) (new_value : F),
        ∃ b ∈ update_membership P d new_root new_hashes new_value root (hashes.set k x) index,
          b = false := by
  have hd : 1 ≤ d := by omega
  have hcmp : P.compress x.1 x.2 ≠ P.compress (hash_at hashes k).1 (hash_at hashes k).2 := by
    intro h
    have h2 := hinj _ _ _ _ h
    rcases hx with ⟨h3, _⟩ | ⟨_, h3⟩
    · exact h3 h2.1
    · exact h3 h2.2
  have hrun : running P (hashes.set k x) root (k + 1) ≠ running P hashes root (k + 1) := by
    have hkk : k = k ∧ k < hashes.length := ⟨rfl, by omega⟩
    simp only [running, hash_at_set, hkk, and_self, if_true]
    exact hcmp
  have hfalse : check_hash_path P d root (hashes.set k x) index = false := by
    rw [← Bool.not_eq_true]
    intro htam
    rw [check_hash_path_iff P d hd root _ root index] at hvalid htam
    by_cases hlast : k + 1 = d
    · apply hrun
      rw [hlast, htam.2, hvalid.2]
    · have hlt : k + 1 < d := by omega
      have h1 := hvalid.1 (k + 1) (by omega) hlt
      have h2 := htam.1 (k + 1) (by omega) hlt
      have hne : ¬ (k = k + 1 ∧ k < hashes.length) := by
        rintro ⟨h, _⟩
        omega
      rw [hash_at_set] at h2
      simp only [hne, if_false] at h2
      apply hrun
      rw [h2, h1]
  refine ⟨hfalse, fun new_root new_hashes new_value => ⟨_, ?_, hfalse⟩⟩
  rw [update_membership_eq]
  exact List.mem_cons_self _ _

/-- The instance of C8 named in the claim: depth 4, a valid path of the
all-zero tree whose level-3 pair `(0, 0)` is replaced by `(1, 0)`. -/
theorem check_hash_path_detects_tamper_witness :
    ((∀ a b c e, toy.compress a b = toy.compress c e → a = c ∧ b = e) ∧
        [((0 : Nat), (0 : Nat)), (0, 0), (0, 0), (0, 0)].length = 4 ∧
        check_hash_path toy 4 0 [(0, 0), (0, 0), (0, 0), (0, 0)] 0 = true ∧ 3 < 4 ∧
        ((((1 : Nat), (0 : Nat)).1 ≠ (hash_at [((0 : Nat), (0 : Nat)), (0, 0), (0, 0), (0, 0)] 3).1 ∧
            ((1 : Nat), (0 : Nat)).2 = (hash_at [((0 : Nat), (0 : Nat)), (0, 0), (0, 0), (0, 0)] 3).2) ∨
          (((1 : Nat), (0 : Nat)).1 = (hash_at [((0 : Nat), (0 : Nat)), (0, 0), (0, 0), (0, 0)] 3).1 ∧
            ((1 : Nat), (0 : Nat)).2 ≠
              (hash_at [((0 : Nat), (0 : Nat)), (0, 0), (0, 0), (0, 0)] 3).2))) ∧
      (check_hash_path toy 4 0 ([((0 : Nat), (0 : Nat)), (0, 0), (0, 0), (0, 0)].set 3 (1, 0)) 0 =
          false ∧
        ∀ (new_root : Nat) (new_hashes : List (Nat × Nat)) (new_value : Nat),
          ∃ b ∈ update_membership toy 4 new_root new_hashes new_value 0
              ([((0 : Nat), (0 : Nat)), (0, 0), (0, 0), (0, 0)].set 3 (1, 0)) 0,
            b = false) :=
  ⟨⟨fun _ _ _ _ h => Nat.pair_eq_pair.1 h, by decide, by decide, by decide, by decide⟩,
    check_hash_path_detects_tamper toy (fun _ _ _ _ h => Nat.pair_eq_pair.1 h) 4 0
      [(0, 0), (0, 0), (0, 0), (0, 0)] 0 (by decide) (by decide) 3 (by decide) (1, 0)
      (by decide)⟩

/-! ## C9 -/

/-- C9. `add_member` is rejected exactly at capacity: in a state with
`size ≤ total_size`, `add_member(value)` fails its `ASSERT` if and only if
`size == total_size`, and on that failure the state (root, size, backing store,
and the obligations recorded on the composer) is unchanged. -/
theorem add_member_rejected_iff_full {S F : Type} [DecidableEq F] [Inhabited F]
    (P : Primitives F) (ops : StoreOps S F) (t : merkle_tree S F) (value : F)
    (hsize : t.size_ ≤ t.total_size_) :
    ((add_member P ops t value).1 = Outcome.assert_failed ↔ t.size_ = t.total_size_) ∧
      ((add_member P ops t value).1 = Outcome.assert_failed →
        (add_member P ops t value).2 = t ∧
          (add_member P ops t value).2.root_ = t.root_ ∧
          (add_member P ops t value).2.size_ = t.size_ ∧
          (add_member P ops t value).2.store_ = t.store_ ∧
          (add_member P ops t value).2.ctx_ = t.ctx_) := by
  unfold add_member ASSERT
  by_cases h : t.size_ < t.total_size_
  · rw [if_pos (decide_eq_true h)]
    refine ⟨⟨fun hf => Outcome.noConfusion hf, fun he => absurd he (by omega)⟩, ?_⟩
    intro hf
    exact Outcome.noConfusion hf
  · rw [if_neg (by simpa using h)]
    exact ⟨⟨fun _ => by omega, fun _ => rfl⟩, fun _ => ⟨rfl, rfl, rfl, rfl, rfl⟩⟩

/-- An instance of C9: a tree of depth 2 holding 4 leaves refuses a fifth. -/
theorem add_member_rejected_iff_full_witness :
    full_tree.size_ ≤ full_tree.total_size_ ∧
      (((add_member toy zero_store full_tree 7).1 = Outcome.assert_failed ↔
          full_tree.size_ = full_tree.total_size_) ∧
        ((add_member toy zero_store full_tree 7).1 = Outcome.assert_failed →
          (add_member toy zero_store full_tree 7).2 = full_tree ∧
            (add_member toy zero_store full_tree 7).2.root_ = full_tree.root_ ∧
            (add_member toy zero_store full_tree 7).2.size_ = full_tree.size_ ∧
            (add_member toy zero_store full_tree 7).2.store_ = full_tree.store_ ∧
            (add_member toy zero_store full_tree 7).2.ctx_ = full_tree.ctx_)) :=
  ⟨by decide, add_member_rejected_iff_full toy zero_store full_tree 7 (by decide)⟩

/-! ## C10 -/

theorem construct_some {S F : Type} (ops : StoreOps S F) (ctx : List Bool) (depth : Nat)
    (t0 : merkle_tree S F) (h0 : construct ops ctx depth = some t0) :
    (1 ≤ depth ∧ depth ≤ 256) ∧ t0.ctx_ = ctx ∧ t0.store_ = ops.create depth ∧
      t0.root_ = ops.root (ops.create depth) ∧ t0.depth_ = depth ∧
      t0.total_size_ = (1 <<< depth) % 2 ^ 64 ∧ t0.size_ = 0 := by
  unfold construct ASSERT at h0
  by_cases h : depth ≥ 1 ∧ depth ≤ 256
  · rw [if_pos (decide_eq_true h)] at h0
    injection h0 with h0
    subst h0
    exact ⟨h, rfl, rfl, rfl, rfl, rfl, rfl⟩
  · rw [if_neg (by simpa using h)] at h0
    exact Option.noConfusion h0

theorem add_member_ok {S F : Type} [DecidableEq F] [Inhabited F] (P : Primitives F)
    (ops : StoreOps S F) (t : merkle_tree S F) (input : F) (next : merkle_tree S F)
    (h : add_member P ops t input = (Outcome.ok, next)) :
    t.size_ < t.total_size_ ∧ next.size_ = (t.size_ + 1) % 2 ^ 64 ∧ next.depth_ = t.depth_ ∧
      next.total_size_ = t.total_size_ := by
  unfold add_member ASSERT at h
  by_cases hlt : t.size_ < t.total_size_
  · rw [if_pos (decide_eq_true hlt)] at h
    injection h with _ h2
    subst h2
    exact ⟨hlt, rfl, rfl, rfl⟩
  · rw [if_neg (by simpa using hlt)] at h
    injection h with h1 _
    exact Outcome.noConfusion h1

theorem reachable_invariant {S F : Type} [DecidableEq F] [Inhabited F] (P : Primitives F)
    (ops : StoreOps S F) (t0 t : merkle_tree S F) (hr : Reachable P ops t0 t)
    (hsize : t0.size_ ≤ t0.total_size_) (htotal : t0.total_size_ < 2 ^ 64) :
    t.depth_ = t0.depth_ ∧ t.total_size_ = t0.total_size_ ∧ t.size_ ≤ t.total_size_ := by
  induction hr with
  | start => exact ⟨rfl, rfl, hsize⟩
  | append t input next _ hadd ih =>
    obtain ⟨ih1, ih2, _⟩ := ih
    obtain ⟨h1, h2, h3, h4⟩ := add_member_ok P ops t input next hadd
    refine ⟨h3.trans ih1, h4.trans ih2, ?_⟩
    rw [h2, h4]
    have hlt : t.size_ + 1 < 2 ^ 64 := by omega
    rw [Nat.mod_eq_of_lt hlt]
    omega
  | update t value index _ ih =>
    exact ih

/-- C10. State machine of the tree façade: construction yields `size = 0` and
`root = store.root()`; from every state reachable from a constructed tree, a
successful `add_member` changes `size` to `size + 1` and an `update_member`
leaves `size` unchanged; `depth` and `total_size` never change; and
`0 ≤ size ≤ total_size` holds in every reachable state. -/
theorem facade_state_machine {S F : Type} [DecidableEq F] [Inhabited F] (P : Primitives F)
    (ops : StoreOps S F) (ctx : List Bool) (depth : Nat) (t0 t : merkle_tree S F)
    (h0 : construct ops ctx depth = some t0) (hr : Reachable P ops t0 t) :
    (t0.size_ = 0 ∧ t0.store_ = ops.create depth ∧ t0.root_ = ops.root t0.store_) ∧
      (∀ (input : F) (next : merkle_tree S F),
        add_member P ops t input = (Outcome.ok, next) →
          next.size_ = t.size_ + 1 ∧ next.depth_ = t.depth_ ∧
            next.total_size_ = t.total_size_) ∧
      (∀ (value : F) (index : Nat),
        (update_member P ops t value index).size_ = t.size_ ∧
          (update_member P ops t value index).depth_ = t.depth_ ∧
          (update_member P ops t value index).total_size_ = t.total_size_) ∧
      (t.depth_ = t0.depth_ ∧ t.total_size_ = t0.total_size_) ∧
      (0 ≤ t.size_ ∧ t.size_ ≤ t.total_size_) := by
  obtain ⟨_, _, hstore, hroot, _, htotal, hsize⟩ := construct_some ops ctx depth t0 h0
  have hlt : t0.total_size_ < 2 ^ 64 := by
    rw [htotal]
    exact Nat.mod_lt _ (by decide)
  obtain ⟨hd, ht, hle⟩ := reachable_invariant P ops t0 t hr (by omega) hlt
  refine ⟨⟨hsize, hstore, by rw [hroot, hstore]⟩, ?_, fun _ _ => ⟨rfl, rfl, rfl⟩, ⟨hd, ht⟩,
    Nat.zero_le _, hle⟩
  intro input next hadd
  obtain ⟨h1, h2, h3, h4⟩ := add_member_ok P ops t input next hadd
  refine ⟨?_, h3, h4⟩
  have hlt2 : t.size_ + 1 < 2 ^ 64 := by omega
  rw [h2, Nat.mod_eq_of_lt hlt2]

/-- An instance of C10: the tree of depth 2 over the all-zero store after one
append and one update. -/
theorem facade_state_machine_witness :
    (construct zero_store [] 2 = some fresh_tree ∧
        Reachable toy zero_store fresh_tree
          (update_member toy zero_store (add_member toy zero_store fresh_tree 7).2 9 3)) ∧
      ((fresh_tree.size_ = 0 ∧ fresh_tree.store_ = zero_store.create 2 ∧
          fresh_tree.root_ = zero_store.root fresh_tree.store_) ∧
        (∀ (input : Nat) (next : merkle_tree Nat Nat),
          add_member toy zero_store
              (update_member toy zero_store (add_member toy zero_store fresh_tree 7).2 9 3)
              input = (Outcome.ok, next) →
            next.size_ =
                (update_member toy zero_store (add_member toy zero_store fresh_tree 7).2 9
                  3).size_ + 1 ∧
              next.depth_ =
                (update_member toy zero_store (add_member toy zero_store fresh_tree 7).2 9
                  3).depth_ ∧
              next.total_size_ =
                (update_member toy zero_store (add_member toy zero_store fresh_tree 7).2 9
                  3).total_size_) ∧
        (∀ (value : Nat) (index : Nat),
          (update_member toy zero_store
              (update_member toy zero_store (add_member toy zero_store fresh_tree 7).2 9 3)
              value index).size_ =
              (update_member toy zero_store (add_member toy zero_store fresh_tree 7).2 9
                3).size_ ∧
            (update_member toy zero_store
              (update_member toy zero_store (add_member toy zero_store fresh_tree 7).2 9 3)
              value index).depth_ =
              (update_member toy zero_store (add_member toy zero_store fresh_tree 7).2 9
                3).depth_ ∧
            (update_member toy zero_store
              (update_member toy zero_store (add_member toy zero_store fresh_tree 7).2 9 3)
              value index).total_size_ =
              (update_member toy zero_store (add_member toy zero_store fresh_tree 7).2 9
                3).total_size_) ∧
        ((update_member toy zero_store (add_member toy zero_store fresh_tree 7).2 9 3).depth_ =
            fresh_tree.depth_ ∧
          (update_member toy zero_store (add_member toy zero_store fresh_tree 7).2 9
            3).total_size_ = fresh_tree.total_size_) ∧
        (0 ≤ (update_member toy zero_store (add_member toy zero_store fresh_tree 7).2 9 3).size_ ∧
          (update_member toy zero_store (add_member toy zero_store fresh_tree 7).2 9 3).size_ ≤
            (update_member toy zero_store (add_member toy zero_store fresh_tree 7).2 9
              3).total_size_)) :=
  ⟨⟨rfl, Reachable.update _ 9 3 (Reachable.append fresh_tree 7 _ Reachable.start rfl)⟩,
    facade_state_machine toy zero_store [] 2 fresh_tree
      (update_member toy zero_store (add_member toy zero_store fresh_tree 7).2 9 3) rfl
      (Reachable.update _ 9 3 (Reachable.append fresh_tree 7 _ Reachable.start rfl))⟩

/-! ## The façade calls, unfolded -/

theorem create_witness_hash_path_eq {F : Type} (input : List (F × F)) :
    create_witness_hash_path input = input := by
  unfold create_witness_hash_path
  simp

theorem update_member_eq {S F : Type} [DecidableEq F] [Inhabited F] (P : Primitives F)
    (ops : StoreOps S F) (t : merkle_tree S F) (value : F) (idx : Nat) (h32 : idx < 2 ^ 32) :
    update_member P ops t value idx =
      { t with
        ctx_ := t.ctx_ ++
          update_membership P t.depth_
            (P.hash
              (hash_at (get_new_hash_path P ops t.store_ t.depth_ idx value) (t.depth_ - 1)).1
              (hash_at (get_new_hash_path P ops t.store_ t.depth_ idx value) (t.depth_ - 1)).2)
            (get_new_hash_path P ops t.store_ t.depth_ idx value) value t.root_
            (ops.get_hash_path t.store_ idx) idx
        store_ := ops.update_element t.store_ idx value
        root_ :=
          P.hash (hash_at (get_new_hash_path P ops t.store_ t.depth_ idx value) (t.depth_ - 1)).1
            (hash_at (get_new_hash_path P ops t.store_ t.depth_ idx value) (t.depth_ - 1)).2 } := by
  have hmod : idx % 2 ^ 32 = idx := Nat.mod_eq_of_lt h32
  unfold update_member
  dsimp only
  rw [hmod, create_witness_hash_path_eq, create_witness_hash_path_eq]

theorem add_member_eq {S F : Type} [DecidableEq F] [Inhabited F] (P : Primitives F)
    (ops : StoreOps S F) (t : merkle_tree S F) (input : F) (hlt : t.size_ < t.total_size_)
    (h64 : t.size_ + 1 < 2 ^ 64) :
    add_member P ops t input =
      (Outcome.ok,
        { t with
          ctx_ := t.ctx_ ++ [true] ++
            update_membership P t.depth_
              (P.hash
                (hash_at (get_new_hash_path P ops t.store_ t.depth_ t.size_ input)
                  (t.depth_ - 1)).1
                (hash_at (get_new_hash_path P ops t.store_ t.depth_ t.size_ input)
                  (t.depth_ - 1)).2)
              (get_new_hash_path P ops t.store_ t.depth_ t.size_ input) input t.root_
              (ops.get_hash_path t.store_ t.size_) t.size_
          store_ := ops.update_element t.store_ t.size_ input
          root_ :=
            P.hash
              (hash_at (get_new_hash_path P ops t.store_ t.depth_ t.size_ input) (t.depth_ - 1)).1
              (hash_at (get_new_hash_path P ops t.store_ t.depth_ t.size_ input) (t.depth_ - 1)).2
          size_ := t.size_ + 1 }) := by
  have hmod : (t.size_ + 1) % 2 ^ 64 = t.size_ + 1 := Nat.mod_eq_of_lt h64
  have hdec : decide (t.size_ = t.size_) = true := decide_eq_true rfl
  unfold add_member ASSERT
  rw [if_pos (decide_eq_true hlt)]
  dsimp only
  rw [hmod, hdec, create_witness_hash_path_eq, create_witness_hash_path_eq]

/-! ## C11 -/

/-- C11. Append is update at the next free slot: in a state with
`size < total_size` (and `size < 2^32`, the range of the `uint32` index that
`update_member` takes), `add_member(v)` succeeds and produces the same new
root, the same backing-store update `update_element(size, v)` and the same
`update_membership` obligations over the same old and new paths as
`update_member(v, size)`; it emits its index assertion before them and advances
`size` by 1, which `update_member` does not.  Consequently two appends of
`v1`, `v2` write positions `size` and `size + 1` and end at the root reached by
`update_member(v1, size)` followed by `update_member(v2, size + 1)`. -/
theorem add_member_is_update_member_at_size {S F : Type} [DecidableEq F] [Inhabited F]
    (P : Primitives F) (ops : StoreOps S F) (t : merkle_tree S F) (v : F)
    (hlt : t.size_ < t.total_size_) (h32 : t.size_ < 2 ^ 32) :
    ((add_member P ops t v).1 = Outcome.ok ∧
        (add_member P ops t v).2.root_ = (update_member P ops t v t.size_).root_ ∧
        (add_member P ops t v).2.store_ = (update_member P ops t v t.size_).store_ ∧
        (add_member P ops t v).2.store_ = ops.update_element t.store_ t.size_ v ∧
        (add_member P ops t v).2.depth_ = (update_member P ops t v t.size_).depth_ ∧
        (add_member P ops t v).2.total_size_ = (update_member P ops t v t.size_).total_size_ ∧
        (add_member P ops t v).2.size_ = t.size_ + 1 ∧
        (update_member P ops t v t.size_).size_ = t.size_) ∧
      ((update_member P ops t v t.size_).ctx_ =
          t.ctx_ ++
            update_membership P t.depth_ (update_member P ops t v t.size_).root_
              (get_new_hash_path P ops t.store_ t.depth_ t.size_ v) v t.root_
              (ops.get_hash_path t.store_ t.size_) t.size_ ∧
        (add_member P ops t v).2.ctx_ =
          t.ctx_ ++ [true] ++
            update_membership P t.depth_ (update_member P ops t v t.size_).root_
              (get_new_hash_path P ops t.store_ t.depth_ t.size_ v) v t.root_
              (ops.get_hash_path t.store_ t.size_) t.size_) ∧
      ∀ v2 : F, t.size_ + 1 < t.total_size_ → t.size_ + 1 < 2 ^ 32 →
        (add_member P ops (add_member P ops t v).2 v2).1 = Outcome.ok ∧
          (add_member P ops (add_member P ops t v).2 v2).2.root_ =
            (update_member P ops (update_member P ops t v t.size_) v2 (t.size_ + 1)).root_ ∧
          (add_member P ops (add_member P ops t v).2 v2).2.store_ =
            ops.update_element (ops.update_element t.store_ t.size_ v) (t.size_ + 1) v2 ∧
          (add_member P ops (add_member P ops t v).2 v2).2.store_ =
            (update_member P ops (update_member P ops t v t.size_) v2 (t.size_ + 1)).store_ ∧
          (add_member P ops (add_member P ops t v).2 v2).2.size_ = t.size_ + 2 := by
  have h64 : t.size_ + 1 < 2 ^ 64 := by omega
  have ha := add_member_eq P ops t v hlt h64
  have hu := update_member_eq P ops t v t.size_ h32
  refine ⟨?_, ?_, ?_⟩
  · rw [ha, hu]
    exact ⟨rfl, rfl, rfl, rfl, rfl, rfl, rfl, rfl⟩
  · rw [ha, hu]
    exact ⟨rfl, rfl⟩
  · intro v2 hlt2 h32b
    rw [ha, hu]
    have h64b : t.size_ + 1 + 1 < 2 ^ 64 := by omega
    rw [add_member_eq P ops _ v2 hlt2 h64b, update_member_eq P ops _ v2 (t.size_ + 1) h32b]
    exact ⟨rfl, rfl, rfl, rfl, rfl⟩

/-- An instance of C11: two appends to the fresh tree of depth 2. -/
theorem add_member_is_update_member_at_size_witness :
    (fresh_tree.size_ < fresh_tree.total_size_ ∧ fresh_tree.size_ < 2 ^ 32) ∧
      (add_member toy zero_store fresh_tree 7).2.root_ =
        (update_member toy zero_store fresh_tree 7 fresh_tree.size_).root_ ∧
      (add_member toy zero_store (add_member toy zero_store fresh_tree 7).2 9).2.root_ =
        (update_member toy zero_store (update_member toy zero_store fresh_tree 7 fresh_tree.size_)
          9 (fresh_tree.size_ + 1)).root_ :=
  ⟨⟨by decide, by decide⟩,
    (add_member_is_update_member_at_size toy zero_store fresh_tree 7 (by decide)
      (by decide)).1.2.1,
    ((add_member_is_update_member_at_size toy zero_store fresh_tree 7 (by decide)
      (by decide)).2.2 9 (by decide) (by decide)).2.1⟩

/-! ## C12 -/

theorem climb_congr {F : Type} [Inhabited F] (comp : F → F → F) (a b : List (F × F))
    (index : Nat) (leaf : F) (j : Nat)
    (h : ∀ i, i < j →
      sibling (hash_at a i) (index.testBit i) = sibling (hash_at b i) (index.testBit i)) :
    climb comp a index leaf j = climb comp b index leaf j := by
  induction j with
  | zero => rfl
  | succ j ih =>
    have hj := h j (by omega)
    have hrec := ih (fun i hi => h i (by omega))
    unfold sibling at hj
    simp only [climb]
    cases hb : index.testBit j
    · simp only [hb, Bool.false_eq_true, if_false] at hj ⊢
      rw [hrec, hj]
    · simp only [hb, if_true] at hj ⊢
      rw [hrec, hj]

theorem hash_at_ext {F : Type} [Inhabited F] (a b : List (F × F)) (hlen : a.length = b.length)
    (h : ∀ j, j < a.length → hash_at a j = hash_at b j) : a = b := by
  apply List.ext_getElem hlen
  intro n h1 h2
  have hn := h n h1
  unfold hash_at at hn
  rw [List.getD_eq_getElem a default h1, List.getD_eq_getElem b default h2] at hn
  exact hn

theorem get_new_hash_path_loop_idem {F : Type} [Inhabited F] (P : Primitives F)
    (stored : List (F × F)) (index : Nat) (value : F) (d : Nat) (hlen : stored.length = d) :
    (get_new_hash_path_loop P (get_new_hash_path_loop P stored index value d).1 index value d).1 =
      (get_new_hash_path_loop P stored index value d).1 := by
  obtain ⟨hl1, hat1, _, _⟩ := get_new_hash_path_loop_eq P stored index value d (by omega)
  obtain ⟨hl2, hat2, _, _⟩ := get_new_hash_path_loop_eq P
    (get_new_hash_path_loop P stored index value d).1 index value d (by omega)
  apply hash_at_ext _ _ hl2
  intro j hj
  have hjd : j < d := by omega
  rw [hat2 j, hat1 j]
  simp only [hjd, if_true]
  have hsib : ∀ i, i < j →
      sibling (hash_at (get_new_hash_path_loop P stored index value d).1 i) (index.testBit i) =
        sibling (hash_at stored i) (index.testBit i) := by
    intro i hi
    rw [hat1 i]
    simp only [show i < d by omega, if_true]
    exact sibling_new_pair P stored index value i
  unfold new_pair
  rw [climb_congr P.hash _ stored index (P.sha256 value) j hsib, hat1 j]
  simp only [hjd, if_true]
  unfold new_pair
  cases index.testBit j <;> simp

/-- C12. Repeating an update is idempotent on the root: recomputing the path for
`(idx, v)` from the already recomputed path returns that same path, so when the
store returns the recomputed path for `idx` after `update_element(idx, v)`, a
second `update_member(v, idx)` leaves `root` equal to the root after the first
call (`idx` is a `uint32`, so `idx < 2^32`). -/
theorem update_member_twice_same_root {S F : Type} [DecidableEq F] [Inhabited F]
    (P : Primitives F) (ops : StoreOps S F) (t : merkle_tree S F) (v : F) (idx : Nat)
    (h32 : idx < 2 ^ 32) (hlen : (ops.get_hash_path t.store_ idx).length = t.depth_)
    (hstore : ops.get_hash_path (ops.update_element t.store_ idx v) idx =
      get_new_hash_path P ops t.store_ t.depth_ idx v) :
    (get_new_hash_path_loop P (get_new_hash_path P ops t.store_ t.depth_ idx v) idx v
          t.depth_).1 = get_new_hash_path P ops t.store_ t.depth_ idx v ∧
      get_new_hash_path P ops (update_member P ops t v idx).store_ t.depth_ idx v =
        get_new_hash_path P ops t.store_ t.depth_ idx v ∧
      (update_member P ops (update_member P ops t v idx) v idx).root_ =
        (update_member P ops t v idx).root_ := by
  have hidem : (get_new_hash_path_loop P (get_new_hash_path P ops t.store_ t.depth_ idx v) idx v
      t.depth_).1 = get_new_hash_path P ops t.store_ t.depth_ idx v :=
    get_new_hash_path_loop_idem P (ops.get_hash_path t.store_ idx) idx v t.depth_ hlen
  have hsecond : get_new_hash_path P ops (ops.update_element t.store_ idx v) t.depth_ idx v =
      get_new_hash_path P ops t.store_ t.depth_ idx v := by
    conv_lhs => unfold get_new_hash_path
    dsimp only
    rw [hstore, hidem]
  refine ⟨hidem, ?_, ?_⟩
  · rw [update_member_eq P ops t v idx h32]
    exact hsecond
  · rw [update_member_eq P ops _ v idx h32, update_member_eq P ops t v idx h32]
    dsimp only
    rw [hsecond]

/-- An instance of C12: leaf 1 of the empty tree of depth 2 over the binary
hash tree store is set to 7 twice. -/
theorem update_member_twice_same_root_witness :
    ((1 : Nat) < 2 ^ 32 ∧
        ((tree_store toy).get_hash_path empty_tree.store_ 1).length = empty_tree.depth_ ∧
        (tree_store toy).get_hash_path ((tree_store toy).update_element empty_tree.store_ 1 7) 1 =
          get_new_hash_path toy (tree_store toy) empty_tree.store_ empty_tree.depth_ 1 7) ∧
      (update_member toy (tree_store toy) (update_member toy (tree_store toy) empty_tree 7 1) 7
          1).root_ = (update_member toy (tree_store toy) empty_tree 7 1).root_ :=
  ⟨⟨by decide, by decide, by decide⟩,
    (update_member_twice_same_root toy (tree_store toy) empty_tree 7 1 (by decide) (by decide)
      (by decide)).2.2⟩

/-! ## C13 -/

theorem construct_total_size {S F : Type} (ops : StoreOps S F) (ctx : List Bool) (depth : Nat)
    (t0 : merkle_tree S F) (h0 : construct ops ctx depth = some t0) :
    (depth < 64 → t0.total_size_ = 2 ^ depth) ∧
      (64 ≤ depth → t0.total_size_ < 2 ^ 64 ∧ 2 ^ 64 ≤ 2 ^ depth ∧ t0.total_size_ ≠ 2 ^ depth) := by
  obtain ⟨_, _, _, _, _, htotal, _⟩ := construct_some ops ctx depth t0 h0
  constructor
  · intro hd
    rw [htotal, Nat.one_shiftLeft]
    exact Nat.mod_eq_of_lt (Nat.pow_lt_pow_right (by decide) hd)
  · intro hd
    have h1 : t0.total_size_ < 2 ^ 64 := by
      rw [htotal]
      exact Nat.mod_lt _ (by decide)
    have h2 : 2 ^ 64 ≤ 2 ^ depth := Nat.pow_le_pow_right (by decide) hd
    exact ⟨h1, h2, by omega⟩

/-- C13 fails at depth 64. The constructor accepts the depth, and the 64-bit
value `1ULL << 64` it stores in `total_size_` is not `2^64`: the model gives 0,
and no 64-bit value equals `2^64`. -/
theorem construct_total_size_at_depth_64 :
    ∃ t : merkle_tree Nat Nat,
      construct zero_store [] 64 = some t ∧ t.depth_ = 64 ∧ t.total_size_ = 0 ∧
        t.total_size_ < 2 ^ 64 ∧ t.total_size_ ≠ 2 ^ t.depth_ :=
  ⟨{ ctx_ := [], store_ := 64, root_ := 0, depth_ := 64, total_size_ := 0, size_ := 0 },
    rfl, rfl, rfl, by decide, by decide⟩

/-! ## C14 -/

/-- C14. `update_member` does not enforce `index < size`: for a state and an
index `idx` (a `uint32`, so `idx < 2^32`) with `size ≤ idx < 2^depth`,
`update_member(value, idx)` has no failing path (it is a total function with no
`ASSERT`), sets `root` to the hash of the top pair of the recomputed path,
writes the store at `idx`, leaves `size` alone, and emits exactly the
obligations of `update_membership`, none of which depends on `size`: run from
the same state with any other `size`, it produces the same result. -/
theorem update_member_ignores_size {S F : Type} [DecidableEq F] [Inhabited F]
    (P : Primitives F) (ops : StoreOps S F) (t : merkle_tree S F) (value : F) (idx : Nat)
    (_hlo : t.size_ ≤ idx) (_hhi : idx < 2 ^ t.depth_) (h32 : idx < 2 ^ 32) :
    (update_member P ops t value idx).root_ =
        P.hash (hash_at (get_new_hash_path P ops t.store_ t.depth_ idx value) (t.depth_ - 1)).1
          (hash_at (get_new_hash_path P ops t.store_ t.depth_ idx value) (t.depth_ - 1)).2 ∧
      (update_member P ops t value idx).store_ = ops.update_element t.store_ idx value ∧
      (update_member P ops t value idx).size_ = t.size_ ∧
      (update_member P ops t value idx).ctx_ =
        t.ctx_ ++
          update_membership P t.depth_ (update_member P ops t value idx).root_
            (get_new_hash_path P ops t.store_ t.depth_ idx value) value t.root_
            (ops.get_hash_path t.store_ idx) idx ∧
      ∀ n : Nat,
        update_member P ops { t with size_ := n } value idx =
          { update_member P ops t value idx with size_ := n } := by
  refine ⟨?_, ?_, ?_, ?_, ?_⟩
  · rw [update_member_eq P ops t value idx h32]
  · rw [update_member_eq P ops t value idx h32]
  · rw [update_member_eq P ops t value idx h32]
  · rw [update_member_eq P ops t value idx h32]
  · intro n
    rw [update_member_eq P ops t value idx h32, update_member_eq P ops _ value idx h32]

/-- An instance of C14: on the fresh tree of depth 2 (`size = 0`), leaf 3 is
updated. -/
theorem update_member_ignores_size_witness :
    (fresh_tree.size_ ≤ 3 ∧ 3 < 2 ^ fresh_tree.depth_ ∧ 3 < 2 ^ 32) ∧
      ((update_member toy zero_store fresh_tree 9 3).root_ =
          toy.hash
            (hash_at (get_new_hash_path toy zero_store fresh_tree.store_ fresh_tree.depth_ 3 9)
              (fresh_tree.depth_ - 1)).1
            (hash_at (get_new_hash_path toy zero_store fresh_tree.store_ fresh_tree.depth_ 3 9)
              (fresh_tree.depth_ - 1)).2 ∧
        (update_member toy zero_store fresh_tree 9 3).store_ =
          zero_store.update_element fresh_tree.store_ 3 9 ∧
        (update_member toy zero_store fresh_tree 9 3).size_ = fresh_tree.size_ ∧
        (update_member toy zero_store fresh_tree 9 3).ctx_ =
          fresh_tree.ctx_ ++
            update_membership toy fresh_tree.depth_
              (update_member toy zero_store fresh_tree 9 3).root_
              (get_new_hash_path toy zero_store fresh_tree.store_ fresh_tree.depth_ 3 9) 9
              fresh_tree.root_ (zero_store.get_hash_path fresh_tree.store_ 3) 3 ∧
        ∀ n : Nat,
          update_member toy zero_store { fresh_tree with size_ := n } 9 3 =
            { update_member toy zero_store fresh_tree 9 3 with size_ := n }) :=
  ⟨⟨by decide, by decide, by decide⟩,
    update_member_ignores_size toy zero_store fresh_tree 9 3 (by decide) (by decide)
      (by decide)⟩

/-! ## C15 -/

/-- C15. Construction succeeds if and only if `1 ≤ depth ≤ 256`; a depth of 0
or a depth above 256 fails the `ASSERT` of the constructor and no tree is
built. -/
theorem construct_succeeds_iff {S F : Type} (ops : StoreOps S F) (ctx : List Bool)
    (depth : Nat) :
    ((∃ t, construct ops ctx depth = some t) ↔ 1 ≤ depth ∧ depth ≤ 256) ∧
      (ASSERT (decide (depth ≥ 1 ∧ depth ≤ 256)) = Outcome.assert_failed ↔
        depth = 0 ∨ 256 < depth) ∧
      (construct ops ctx depth = none ↔ depth = 0 ∨ 256 < depth) := by
  unfold construct ASSERT
  by_cases h : depth ≥ 1 ∧ depth ≤ 256
  · rw [if_pos (decide_eq_true h)]
    refine ⟨⟨fun _ => h, fun _ => ⟨_, rfl⟩⟩, ?_, ?_⟩
    · exact ⟨fun hf => Outcome.noConfusion hf, fun hd => absurd h (by omega)⟩
    · exact ⟨fun hf => Option.noConfusion hf, fun hd => absurd h (by omega)⟩
  · rw [if_neg (by simpa using h)]
    refine ⟨⟨?_, fun hd => absurd hd h⟩, ?_, ?_⟩
    · rintro ⟨t, ht⟩
      exact Option.noConfusion ht
    · exact ⟨fun _ => by omega, fun _ => rfl⟩
    · exact ⟨fun _ => by omega, fun _ => rfl⟩

/-! ## C17 -/

theorem new_hash_path_is_member {S F : Type} [DecidableEq F] [Inhabited F]
    (P : Primitives F) (ops : StoreOps S F) (store_ : S) (d idx : Nat) (v : F) (hd : 1 ≤ d)
    (hlen : (ops.get_hash_path store_ idx).length = d)
    (hcompress : P.compress = P.hash) (hsha : P.sha256_field = P.sha256) :
    check_membership P d
        (P.hash (hash_at (get_new_hash_path P ops store_ d idx v) (d - 1)).1
          (hash_at (get_new_hash_path P ops store_ d idx v) (d - 1)).2)
        (get_new_hash_path P ops store_ d idx v) (P.sha256_field v) idx = true := by
  rw [check_membership_iff]
  obtain ⟨k, rfl⟩ : ∃ k, d = k + 1 := ⟨d - 1, by omega⟩
  have hat := get_new_hash_path_at P ops store_ (k + 1) idx v hlen
  constructor
  · intro i hi
    rw [hat i hi, selected_new_pair]
    cases i with
    | zero => simp [running, climb, hsha]
    | succ j =>
      simp only [running]
      rw [hat j (by omega), hcompress, hash_new_pair]
  · simp only [running, Nat.add_sub_cancel, hcompress]

theorem honest_obligations {S F : Type} [DecidableEq F] [Inhabited F]
    (P : Primitives F) (ops : StoreOps S F) (store_ : S) (d idx : Nat) (v root : F)
    (hd : 1 ≤ d) (hlen : (ops.get_hash_path store_ idx).length = d)
    (hcompress : P.compress = P.hash) (hsha : P.sha256_field = P.sha256)
    (hold : check_hash_path P d root (ops.get_hash_path store_ idx) idx = true) :
    (update_membership P d
          (P.hash (hash_at (get_new_hash_path P ops store_ d idx v) (d - 1)).1
            (hash_at (get_new_hash_path P ops store_ d idx v) (d - 1)).2)
          (get_new_hash_path P ops store_ d idx v) v root (ops.get_hash_path store_ idx)
          idx).length = d + 2 ∧
      ∀ b ∈ update_membership P d
          (P.hash (hash_at (get_new_hash_path P ops store_ d idx v) (d - 1)).1
            (hash_at (get_new_hash_path P ops store_ d idx v) (d - 1)).2)
          (get_new_hash_path P ops store_ d idx v) v root (ops.get_hash_path store_ idx) idx,
        b = true := by
  constructor
  · rw [update_membership_eq]
    simp
  · rw [update_membership_all_iff]
    refine ⟨hold, new_hash_path_is_member P ops store_ d idx v hd hlen hcompress hsha, ?_⟩
    intro i hi
    rw [share_check_iff, get_new_hash_path_at P ops store_ d idx v hlen i hi, sibling_new_pair]

/-- C17. Completeness for an honest prover, the in-circuit compression and leaf
hash being the native `hash` and `sha256`: in a state of depth at least 1, for
a value `v` and an index `idx < 2^depth` (a `uint32`, so `idx < 2^32`) whose
stored path `old = get_hash_path(idx)` has `depth` pairs and satisfies
`check_hash_path(root, old, idx)`, `update_member(v, idx)` emits `depth + 2`
hard assertions (old-path check, new-path membership check against the hash of
the top recomputed pair, `depth` share checks) and all of them hold; under the
same conditions at `idx = size < total_size` (`size` being a 64-bit integer),
`add_member(v)` succeeds and emits `depth + 3` assertions, the first being that the index witness equals `size`,
and all of them hold. -/
theorem honest_prover_complete {S F : Type} [DecidableEq F] [Inhabited F]
    (P : Primitives F) (ops : StoreOps S F) (t : merkle_tree S F) (v : F)
    (hcompress : P.compress = P.hash) (hsha : P.sha256_field = P.sha256)
    (hd : 1 ≤ t.depth_) :
    (∀ idx : Nat, idx < 2 ^ t.depth_ → idx < 2 ^ 32 →
        (ops.get_hash_path t.store_ idx).length = t.depth_ →
        check_hash_path P t.depth_ t.root_ (ops.get_hash_path t.store_ idx) idx = true →
        ∃ emitted : List Bool,
          (update_member P ops t v idx).ctx_ = t.ctx_ ++ emitted ∧
            emitted.length = t.depth_ + 2 ∧ ∀ b ∈ emitted, b = true) ∧
      (t.size_ < t.total_size_ → t.size_ < 2 ^ t.depth_ → t.size_ + 1 < 2 ^ 64 →
        (ops.get_hash_path t.store_ t.size_).length = t.depth_ →
        check_hash_path P t.depth_ t.root_ (ops.get_hash_path t.store_ t.size_) t.size_ = true →
        ∃ emitted : List Bool,
          (add_member P ops t v).1 = Outcome.ok ∧
            (add_member P ops t v).2.ctx_ = t.ctx_ ++ emitted ∧
            emitted.head? = some (decide (t.size_ = t.size_)) ∧
            emitted.length = t.depth_ + 3 ∧ ∀ b ∈ emitted, b = true) := by
  constructor
  · intro idx _ h32 hlen hold
    obtain ⟨h1, h2⟩ :=
      honest_obligations P ops t.store_ t.depth_ idx v t.root_ hd hlen hcompress hsha hold
    rw [update_member_eq P ops t v idx h32]
    exact ⟨_, rfl, h1, h2⟩
  · intro hlt _ h64 hlen hold
    obtain ⟨h1, h2⟩ :=
      honest_obligations P ops t.store_ t.depth_ t.size_ v t.root_ hd hlen hcompress hsha hold
    rw [add_member_eq P ops t v hlt h64]
    refine ⟨_, rfl, List.append_assoc _ _ _, ?_, ?_, ?_⟩
    · simp
    · simp only [List.singleton_append, List.length_cons, h1]
    · intro b hb
      rcases List.mem_cons.1 hb with hb | hb
      · exact hb
      · exact h2 b hb

/-- An instance of C17 on the fresh tree of depth 2: `update_member(9, 3)` and
`add_member(9)` at `size = 0`. -/
theorem honest_prover_complete_witness :
    (toy.compress = toy.hash ∧ toy.sha256_field = toy.sha256 ∧ 1 ≤ fresh_tree.depth_) ∧
      (∃ emitted : List Bool,
        (update_member toy zero_store fresh_tree 9 3).ctx_ = fresh_tree.ctx_ ++ emitted ∧
          emitted.length = fresh_tree.depth_ + 2 ∧ ∀ b ∈ emitted, b = true) ∧
      ∃ emitted : List Bool,
        (add_member toy zero_store fresh_tree 9).1 = Outcome.ok ∧
          (add_member toy zero_store fresh_tree 9).2.ctx_ = fresh_tree.ctx_ ++ emitted ∧
          emitted.head? = some (decide (fresh_tree.size_ = fresh_tree.size_)) ∧
          emitted.length = fresh_tree.depth_ + 3 ∧ ∀ b ∈ emitted, b = true :=
  ⟨⟨rfl, rfl, by decide⟩,
    (honest_prover_complete toy zero_store fresh_tree 9 rfl rfl (by decide)).1 3 (by decide)
      (by decide) (by decide) (by decide),
    (honest_prover_complete toy zero_store fresh_tree 9 rfl rfl (by decide)).2 (by decide)
      (by decide) (by decide) (by decide) (by decide)⟩

/-! ## C18 -/

theorem for_loop_congr {σ : Type} (body1 body2 : Nat → σ → σ) (n i : Nat) (s : σ)
    (h : ∀ k, i ≤ k → k < i + n → ∀ st, body1 k st = body2 k st) :
    for_loop body1 n i s = for_loop body2 n i s := by
  induction n generalizing i s with
  | zero => rfl
  | succ n ih =>
    rw [for_loop, for_loop, h i (Nat.le_refl i) (by omega)]
    exact ih (i + 1) _ (fun k h1 h2 st => h k (by omega) (by omega) st)

theorem testBit_xor_one (index k : Nat) (hk : 1 ≤ k) :
    (index ^^^ 1).testBit k = index.testBit k := by
  rw [Nat.testBit_xor]
  cases k with
  | zero => omega
  | succ k => simp [Nat.testBit_succ]

/-- C18. `check_hash_path` never reads bit 0 of the index and uses the level-0
pair only through its compression: `check_hash_path(root, hashes, idx)` equals
`check_hash_path(root, hashes, idx XOR 1)`, and replacing the level-0 pair by
any pair with the same compression does not change the result; so the old-path
assertion emitted first by `update_membership` is the same for `idx` and for
`idx XOR 1`. -/
theorem check_hash_path_ignores_bit0 {F : Type} [DecidableEq F] [Inhabited F]
    (P : Primitives F) (depth : Nat) (root : F) (hashes : List (F × F)) (idx : Nat) :
    check_hash_path P depth root hashes idx = check_hash_path P depth root hashes (idx ^^^ 1) ∧
      (∀ pair : F × F,
        P.compress pair.1 pair.2 = P.compress (hash_at hashes 0).1 (hash_at hashes 0).2 →
          check_hash_path P depth root (hashes.set 0 pair) idx =
            check_hash_path P depth root hashes idx) ∧
      ∀ (new_root : F) (new_hashes : List (F × F)) (new_value : F),
        (update_membership P depth new_root new_hashes new_value root hashes idx).head? =
          some (check_hash_path P depth root hashes (idx ^^^ 1)) := by
  have h1 : check_hash_path P depth root hashes idx =
      check_hash_path P depth root hashes (idx ^^^ 1) := by
    unfold check_hash_path
    dsimp only
    rw [for_loop_congr (check_body P hashes idx) (check_body P hashes (idx ^^^ 1))]
    intro k hk _ st
    unfold check_body uint32_at
    rw [testBit_xor_one idx k hk]
  refine ⟨h1, ?_, ?_⟩
  · intro pair hpair
    unfold check_hash_path
    dsimp only
    have h0 : hash_at (hashes.set 0 pair) 0 = pair ∨ hash_at (hashes.set 0 pair) 0 =
        hash_at hashes 0 := by
      rw [hash_at_set]
      by_cases hl : 0 = 0 ∧ 0 < hashes.length
      · exact Or.inl (if_pos hl)
      · exact Or.inr (if_neg hl)
    have hc : P.compress (hash_at (hashes.set 0 pair) 0).1 (hash_at (hashes.set 0 pair) 0).2 =
        P.compress (hash_at hashes 0).1 (hash_at hashes 0).2 := by
      rcases h0 with h0 | h0
      · rw [h0, hpair]
      · rw [h0]
    rw [hc, for_loop_congr (check_body P (hashes.set 0 pair) idx) (check_body P hashes idx)]
    intro k hk _ st
    have hne : ¬ (0 = k ∧ 0 < hashes.length) := by
      rintro ⟨h, _⟩
      omega
    unfold check_body
    simp only [hash_at_set, hne, if_false]
  · intro new_root new_hashes new_value
    rw [update_membership_eq, List.head?_cons, h1]

/-! ## C16 -/

theorem tree_path_length {F : Type} [Inhabited F] (P : Primitives F) (s : TreeStore F)
    (i : Nat) : ((tree_store P).get_hash_path s i).length = s.depth := by
  simp [tree_store]

theorem tree_path_at {F : Type} [Inhabited F] (P : Primitives F) (s : TreeStore F)
    (i level : Nat) (h : level < s.depth) :
    hash_at ((tree_store P).get_hash_path s i) level =
      (TreeStore.node P s level (2 * (i / 2 ^ (level + 1))),
        TreeStore.node P s level (2 * (i / 2 ^ (level + 1)) + 1)) := by
  unfold hash_at tree_store
  simp [List.getD_eq_getElem?_getD, List.getElem?_map, List.getElem?_range h]

theorem div_pow_succ (i level : Nat) : i / 2 ^ (level + 1) = i / 2 ^ level / 2 := by
  rw [Nat.div_div_eq_div_mul, pow_succ]

theorem tree_path_selected {F : Type} [Inhabited F] (P : Primitives F) (s : TreeStore F)
    (i level : Nat) (h : level < s.depth) :
    selected (hash_at ((tree_store P).get_hash_path s i) level) (i.testBit level) =
      TreeStore.node P s level (i / 2 ^ level) := by
  rw [tree_path_at P s i level h, Nat.testBit_to_div_mod, div_pow_succ]
  unfold selected
  have hq := Nat.div_add_mod (i / 2 ^ level) 2
  by_cases hb : i / 2 ^ level % 2 = 1
  · simp only [hb, decide_True, if_true]
    congr 1
    omega
  · simp only [hb, decide_False, Bool.false_eq_true, if_false]
    congr 1
    omega

theorem tree_path_sibling {F : Type} [Inhabited F] (P : Primitives F) (s : TreeStore F)
    (i level : Nat) (h : level < s.depth) :
    ∃ pos, pos ≠ i / 2 ^ level ∧ pos / 2 = i / 2 ^ (level + 1) ∧
      sibling (hash_at ((tree_store P).get_hash_path s i) level) (i.testBit level) =
        TreeStore.node P s level pos := by
  rw [tree_path_at P s i level h, Nat.testBit_to_div_mod, div_pow_succ]
  unfold sibling
  have hq := Nat.div_add_mod (i / 2 ^ level) 2
  by_cases hb : i / 2 ^ level % 2 = 1
  · refine ⟨2 * (i / 2 ^ level / 2), by omega, by omega, ?_⟩
    simp only [hb, decide_True, if_true]
  · refine ⟨2 * (i / 2 ^ level / 2) + 1, by omega, by omega, ?_⟩
    simp only [hb, decide_False, Bool.false_eq_true, if_false]

theorem tree_path_is_member {F : Type} [DecidableEq F] [Inhabited F] (P : Primitives F)
    (s : TreeStore F) (i : Nat) (hcompress : P.compress = P.hash) (hi : i < 2 ^ s.depth) :
    check_membership P s.depth (TreeStore.node P s s.depth 0)
      ((tree_store P).get_hash_path s i) (s.leaves i) i = true := by
  rw [check_membership_iff]
  have hrun : ∀ l, l ≤ s.depth →
      running P ((tree_store P).get_hash_path s i) (s.leaves i) l =
        TreeStore.node P s l (i / 2 ^ l) := by
    intro l hl
    cases l with
    | zero => simp [running, TreeStore.node]
    | succ k =>
      simp only [running, TreeStore.node]
      rw [tree_path_at P s i k (by omega), hcompress]
  constructor
  · intro l hl
    rw [hrun l (by omega), tree_path_selected P s i l hl]
  · rw [hrun s.depth (Nat.le_refl _), Nat.div_eq_of_lt hi]

theorem node_update_other {F : Type} [Inhabited F] (P : Primitives F) (s : TreeStore F)
    (j : Nat) (v : F) (l pos : Nat) (h : pos ≠ j / 2 ^ l) :
    TreeStore.node P ((tree_store P).update_element s j v) l pos = TreeStore.node P s l pos := by
  induction l generalizing pos with
  | zero =>
    have hne : pos ≠ j := by simpa using h
    simp [TreeStore.node, tree_store, hne]
  | succ l ih =>
    rw [div_pow_succ] at h
    simp only [TreeStore.node]
    rw [ih (2 * pos) (by omega), ih (2 * pos + 1) (by omega)]

theorem node_update_path {F : Type} [Inhabited F] (P : Primitives F) (s : TreeStore F)
    (j : Nat) (v : F) (l : Nat) (hl : l ≤ s.depth) :
    TreeStore.node P ((tree_store P).update_element s j v) l (j / 2 ^ l) =
      climb P.hash ((tree_store P).get_hash_path s j) j (P.sha256 v) l := by
  induction l with
  | zero => simp [TreeStore.node, tree_store, climb]
  | succ l ih =>
    have ih2 := ih (by omega)
    have hat := tree_path_at P s j l (by omega)
    have hq := Nat.div_add_mod (j / 2 ^ l) 2
    simp only [TreeStore.node, climb, hat, Nat.testBit_to_div_mod]
    rw [div_pow_succ]
    by_cases hb : j / 2 ^ l % 2 = 1
    · have h1 : 2 * (j / 2 ^ l / 2) + 1 = j / 2 ^ l := by omega
      have h2 : 2 * (j / 2 ^ l / 2) ≠ j / 2 ^ l := by omega
      simp only [hb, decide_True, if_true]
      rw [h1, ih2, node_update_other P s j v l _ h2]
    · have h1 : 2 * (j / 2 ^ l / 2) = j / 2 ^ l := by omega
      have h2 : 2 * (j / 2 ^ l / 2) + 1 ≠ j / 2 ^ l := by omega
      simp only [hb, decide_False, Bool.false_eq_true, if_false]
      rw [node_update_other P s j v l _ h2, h1, ih2]

theorem new_root_eq {F : Type} [Inhabited F] (P : Primitives F) (s : TreeStore F)
    (d j : Nat) (v : F) (hd : s.depth = d) (hd1 : 1 ≤ d) (hj : j < 2 ^ d) :
    P.hash (hash_at (get_new_hash_path P (tree_store P) s d j v) (d - 1)).1
        (hash_at (get_new_hash_path P (tree_store P) s d j v) (d - 1)).2 =
      TreeStore.node P ((tree_store P).update_element s j v) d 0 := by
  have hlen : ((tree_store P).get_hash_path s j).length = d := by
    rw [tree_path_length, hd]
  rw [get_new_hash_path_at P (tree_store P) s d j v hlen (d - 1) (by omega), hash_new_pair]
  have hdd : d - 1 + 1 = d := by omega
  rw [hdd, ← node_update_path P s j v d (by omega), Nat.div_eq_of_lt hj]

theorem construct_consistent {F : Type} [Inhabited F] (P : Primitives F) (ctx : List Bool)
    (depth : Nat) (t0 : merkle_tree (TreeStore F) F)
    (h0 : construct (tree_store P) ctx depth = some t0) : store_consistent P t0 := by
  obtain ⟨⟨hd1, _⟩, _, hstore, hroot, hdepth, htotal, _⟩ :=
    construct_some (tree_store P) ctx depth t0 h0
  have hlt : t0.total_size_ < 2 ^ 64 := by
    rw [htotal]
    exact Nat.mod_lt _ (by decide)
  refine ⟨by rw [hstore, hdepth]; rfl, by rw [hroot, hdepth, hstore]; rfl, by omega, ?_, hlt⟩
  rw [hdepth]
  by_cases hd : depth < 64
  · rw [htotal, Nat.one_shiftLeft]
    exact Nat.mod_le _ _
  · have h2 : 2 ^ 64 ≤ 2 ^ depth := Nat.pow_le_pow_right (by decide) (by omega)
    omega

theorem update_member_consistent {F : Type} [DecidableEq F] [Inhabited F] (P : Primitives F)
    (t : merkle_tree (TreeStore F) F) (v : F) (j : Nat) (hgood : store_consistent P t)
    (hj : j < 2 ^ t.depth_) (h32 : j < 2 ^ 32) :
    store_consistent P (update_member P (tree_store P) t v j) ∧
      (update_member P (tree_store P) t v j).store_ =
        (tree_store P).update_element t.store_ j v ∧
      (update_member P (tree_store P) t v j).depth_ = t.depth_ ∧
      (update_member P (tree_store P) t v j).size_ = t.size_ := by
  obtain ⟨h1, _, h3, h4, h5⟩ := hgood
  rw [update_member_eq P (tree_store P) t v j h32]
  refine ⟨⟨h1, new_root_eq P t.store_ t.depth_ j v h1 h3 hj, h3, h4, h5⟩, rfl, rfl, rfl⟩

theorem add_member_consistent {F : Type} [DecidableEq F] [Inhabited F] (P : Primitives F)
    (t : merkle_tree (TreeStore F) F) (v : F) (next : merkle_tree (TreeStore F) F)
    (hgood : store_consistent P t) (hadd : add_member P (tree_store P) t v = (Outcome.ok, next)) :
    store_consistent P next ∧
      next.store_ = (tree_store P).update_element t.store_ t.size_ v ∧
      next.depth_ = t.depth_ ∧ next.size_ = t.size_ + 1 ∧ t.size_ < 2 ^ t.depth_ := by
  obtain ⟨h1, _, h3, h4, h5⟩ := hgood
  obtain ⟨hlt, _, _, _⟩ := add_member_ok P (tree_store P) t v next hadd
  have hj : t.size_ < 2 ^ t.depth_ := by omega
  rw [add_member_eq P (tree_store P) t v hlt (by omega)] at hadd
  injection hadd with _ hnext
  subst hnext
  refine ⟨⟨h1, new_root_eq P t.store_ t.depth_ t.size_ v h1 h3 hj, h3, h4, h5⟩, rfl, rfl, rfl,
    hj⟩

theorem check_membership_of_leaf {F : Type} [DecidableEq F] [Inhabited F] (P : Primitives F)
    (t : merkle_tree (TreeStore F) F) (A : F) (i : Nat)
    (hcompress : P.compress = P.hash) (hsha : P.sha256_field = P.sha256)
    (hgood : store_consistent P t) (hleaf : t.store_.leaves i = P.sha256 A)
    (hi : i < 2 ^ t.depth_) (h32 : i < 2 ^ 32) :
    check_membership_of P (tree_store P) t A i = true := by
  obtain ⟨h1, h2, _, _, _⟩ := hgood
  have hmod : i % 2 ^ 32 = i := Nat.mod_eq_of_lt h32
  unfold check_membership_of
  dsimp only
  rw [hmod, create_witness_hash_path_eq, hsha, ← hleaf, h2, ← h1]
  exact tree_path_is_member P t.store_ i hcompress (by rw [h1]; exact hi)

theorem later_steps_invariant {F : Type} [DecidableEq F] [Inhabited F] (P : Primitives F)
    (i : Nat) (x : F) (t1 t2 : merkle_tree (TreeStore F) F) (hlater : LaterSteps P i t1 t2)
    (hgood : store_consistent P t1) (hleaf : t1.store_.leaves i = x) (hsize : i < t1.size_) :
    store_consistent P t2 ∧ t2.store_.leaves i = x ∧ i < t2.size_ ∧ t2.depth_ = t1.depth_ := by
  induction hlater with
  | start => exact ⟨hgood, hleaf, hsize, rfl⟩
  | append t input next _ hadd ih =>
    obtain ⟨ih1, ih2, ih3, ih4⟩ := ih
    obtain ⟨g1, g2, g3, g4, _⟩ := add_member_consistent P t input next ih1 hadd
    refine ⟨g1, ?_, by omega, g3.trans ih4⟩
    rw [g2]
    have hne : i ≠ t.size_ := by omega
    simp [tree_store, hne, ih2]
  | update t value j _ hne hj h32 ih =>
    obtain ⟨ih1, ih2, ih3, ih4⟩ := ih
    obtain ⟨g1, g2, g3, g4⟩ := update_member_consistent P t value j ih1 hj h32
    refine ⟨g1, ?_, by omega, g3.trans ih4⟩
    rw [g2]
    have hne2 : i ≠ j := fun h => hne h.symm
    simp [tree_store, hne2, ih2]

/-- C16. Membership survives unrelated updates, the backing store being the
complete binary hash tree and the in-circuit compression and leaf hash being
the native `hash` and `sha256`: from a consistent state, once `add_member(A)`
has placed `A` at index `i = size` (`i < 2^32`, the range of the `uint32` index
of the façade check), after any later appends and any later
`update_member(C, j)` with `j ≠ i` a valid index, the façade's
`check_membership(A, i)` against the current root returns true. -/
theorem membership_survives_unrelated_updates {F : Type} [DecidableEq F] [Inhabited F]
    (P : Primitives F) (hcompress : P.compress = P.hash) (hsha : P.sha256_field = P.sha256)
    (t : merkle_tree (TreeStore F) F) (hgood : store_consistent P t) (A : F)
    (t1 : merkle_tree (TreeStore F) F)
    (hadd : add_member P (tree_store P) t A = (Outcome.ok, t1)) (h32 : t.size_ < 2 ^ 32)
    (t2 : merkle_tree (TreeStore F) F) (hlater : LaterSteps P t.size_ t1 t2) :
    check_membership_of P (tree_store P) t2 A t.size_ = true ∧
      t2.store_.leaves t.size_ = P.sha256 A := by
  obtain ⟨g1, g2, g3, g4, g5⟩ := add_member_consistent P t A t1 hgood hadd
  have hleaf : t1.store_.leaves t.size_ = P.sha256 A := by
    rw [g2]
    simp [tree_store]
  obtain ⟨k1, k2, _, k4⟩ :=
    later_steps_invariant P t.size_ (P.sha256 A) t1 t2 hlater g1 hleaf (by omega)
  refine ⟨check_membership_of_leaf P t2 A t.size_ hcompress hsha k1 k2 ?_ h32, k2⟩
  rw [k4, g3]
  exact g5

/-- The instance of C16 named in the claim: depth 2, `A = 7` appended at index
0, `B = 9` appended at index 1, then `update_member(C = 5, 3)`. -/
theorem membership_survives_unrelated_updates_witness :
    (toy.compress = toy.hash ∧ toy.sha256_field = toy.sha256 ∧ store_consistent toy empty_tree ∧
        add_member toy (tree_store toy) empty_tree 7 =
          (Outcome.ok, (add_member toy (tree_store toy) empty_tree 7).2) ∧
        empty_tree.size_ < 2 ^ 32 ∧
        LaterSteps toy empty_tree.size_ (add_member toy (tree_store toy) empty_tree 7).2
          (update_member toy (tree_store toy)
            (add_member toy (tree_store toy) (add_member toy (tree_store toy) empty_tree 7).2
              9).2 5 3)) ∧
      (check_membership_of toy (tree_store toy)
          (update_member toy (tree_store toy)
            (add_member toy (tree_store toy) (add_member toy (tree_store toy) empty_tree 7).2
              9).2 5 3) 7 empty_tree.size_ = true ∧
        (update_member toy (tree_store toy)
            (add_member toy (tree_store toy) (add_member toy (tree_store toy) empty_tree 7).2
              9).2 5 3).store_.leaves empty_tree.size_ = toy.sha256 7) :=
  ⟨⟨rfl, rfl, construct_consistent toy [] 2 empty_tree rfl, rfl, by decide,
      LaterSteps.update _ 5 3 (LaterSteps.append _ 9 _ LaterSteps.start rfl) (by decide)
        (by decide) (by decide)⟩,
    membership_survives_unrelated_updates toy rfl rfl empty_tree
      (construct_consistent toy [] 2 empty_tree rfl) 7 _ rfl (by decide) _
      (LaterSteps.update _ 5 3 (LaterSteps.append _ 9 _ LaterSteps.start rfl) (by decide)
        (by decide) (by decide))⟩

end plonk.stdlib
